import Mathlib

/-!
# udtc: UTF-8 double columnar transposition cipher

A shallow embedding of `src/udtc.c` and `src/utf8.h` and proofs of the properties
the specification states about them.

Conventions of the embedding.

* A code point buffer `uint32_t *msg` with its length `len` is a `List Nat`.
* A key `char *key` is the list of the `int` values of the characters of the
  buffer; a read at or after the end of the list gives NUL, so the list
  `[98, 99, 97]` is the C string "bca" and the C string ends at the first `0`.
* `int` arithmetic is the arithmetic of `Int`; loop counters are `Nat`.
  For `len <= INT_MAX` no counter and no subtraction of `compare` leaves the
  range of `int`.
* `fatal` ends the process: a function that can call it returns the reason.
-/

namespace Udtc

/-! ## The transposition engine (`udtc.c`) -/

/-- The `tc_item` struct of `udtc.c`. -/
structure tc_item where
  code : Nat
  key : Int
  subkey : Int
  deriving DecidableEq, Repr

/-- The comparison function `compare` of `udtc.c`: the difference of the
subkeys when the keys are equal, the difference of the keys otherwise. -/
def compare (a b : tc_item) : Int :=
  if a.key = b.key then a.subkey - b.subkey else a.key - b.key

/-- The merge step of the sort: the head of the left run goes first when
`compar` does not put it after the head of the right run. The first argument
bounds the number of steps; the sum of the two lengths is enough. -/
def merge (compar : tc_item → tc_item → Int) : Nat → List tc_item → List tc_item → List tc_item
  | 0, xs, ys => xs ++ ys
  | _ + 1, [], ys => ys
  | _ + 1, xs, [] => xs
  | fuel + 1, x :: xs, y :: ys =>
    if compar x y ≤ 0 then x :: merge compar fuel xs (y :: ys)
    else y :: merge compar fuel (x :: xs) ys

/-- Top-down merge sort of a list of items, the first argument bounding the
depth of the recursion; the length of the list is enough. -/
def sort_run (compar : tc_item → tc_item → Int) : Nat → List tc_item → List tc_item
  | 0, l => l
  | fuel + 1, l =>
    if l.length < 2 then l
    else
      let h := (l.length + 1) / 2
      merge compar l.length (sort_run compar fuel (l.take h)) (sort_run compar fuel (l.drop h))

/-- The libc function `mergesort(3)`, a stable merge sort: items that
`compar` orders stay ordered, items it does not distinguish keep their input
order. -/
def mergesort (items : List tc_item) (compar : tc_item → tc_item → Int) : List tc_item :=
  sort_run compar items.length items

/-- The read `key[k]` of a `char *key`: NUL at and after the terminator. -/
def key_at (key : List Int) (k : Nat) : Int := key.getD k 0

/-- The step `if (!key[++k]) k = 0;` of the tagging loops. -/
def next_k (key : List Int) (k : Nat) : Nat :=
  if key_at key (k + 1) = 0 then 0 else k + 1

/-- The tagging loop of `transpose` (lines 182-188) and of `reverse`
(lines 203-209): the item built at each position holds the given code, the
key character `key[k]` and the column `k`, where `k` starts at the given
value and is advanced by `next_k`. `transpose` runs it on `msg`, `reverse` on
the indices `0, 1, ..., len - 1`. -/
def fill_items (key : List Int) : Nat → List Nat → List tc_item
  | _, [] => []
  | k, c :: cs => ⟨c, key_at key k, (k : Int)⟩ :: fill_items key (next_k key k) cs

/-- The function `transpose` of `udtc.c`: the new content of `msg`. -/
def transpose (msg : List Nat) (key : List Int) : List Nat :=
  (mergesort (fill_items key 0 msg) compare).map (fun it => it.code)

/-- Phase A of `reverse` (lines 203-210): the items built on the indices
`0 .. len - 1`, sorted. -/
def phase_a (len : Nat) (key : List Int) : List tc_item :=
  mergesort (fill_items key 0 (List.range len)) compare

/-- The re-tagging loop of `reverse` (lines 211-214):
`items[i].key = (int) items[i].code; items[i].code = msg[i];`,
the subkey is left as it is. -/
def retag (items : List tc_item) (msg : List Nat) : List tc_item :=
  List.zipWith (fun it m => ({ code := m, key := (it.code : Int), subkey := it.subkey } : tc_item))
    items msg

/-- The function `reverse` of `udtc.c`: the new content of `msg`. -/
def reverse (msg : List Nat) (key : List Int) : List Nat :=
  (mergesort (retag (phase_a msg.length key) msg) compare).map (fun it => it.code)

/-- The list of original indices held by the items after Phase A. -/
def phase_a_indices (len : Nat) (key : List Int) : List Nat :=
  (phase_a len key).map (fun it => it.code)

/-- A key is non-empty when its first character is not NUL (`*key` in `main`). -/
def key_nonempty (key : List Int) : Prop := key_at key 0 ≠ 0

instance (key : List Int) : Decidable (key_nonempty key) := by
  unfold key_nonempty; infer_instance

/-- The length of the C string `key`: the number of characters before the
first NUL. -/
def strlen (key : List Int) : Nat := (key.takeWhile (fun c => c ≠ 0)).length

/-! ## The UTF-8 codec (`utf8.h`) -/

/-- The constant `UTF8_ACCEPT`. -/
def UTF8_ACCEPT : Nat := 0

/-- The constant `UTF8_REJECT`. -/
def UTF8_REJECT : Nat := 12

/-- The table `utf8d`: 256 character classes, then the transition table. -/
def utf8d : List Nat := [
  0,0,0,0,0,0,0,0,0,0,0,0,0,0,0,0,  0,0,0,0,0,0,0,0,0,0,0,0,0,0,0,0,
  0,0,0,0,0,0,0,0,0,0,0,0,0,0,0,0,  0,0,0,0,0,0,0,0,0,0,0,0,0,0,0,0,
  0,0,0,0,0,0,0,0,0,0,0,0,0,0,0,0,  0,0,0,0,0,0,0,0,0,0,0,0,0,0,0,0,
  0,0,0,0,0,0,0,0,0,0,0,0,0,0,0,0,  0,0,0,0,0,0,0,0,0,0,0,0,0,0,0,0,
  1,1,1,1,1,1,1,1,1,1,1,1,1,1,1,1,  9,9,9,9,9,9,9,9,9,9,9,9,9,9,9,9,
  7,7,7,7,7,7,7,7,7,7,7,7,7,7,7,7,  7,7,7,7,7,7,7,7,7,7,7,7,7,7,7,7,
  8,8,2,2,2,2,2,2,2,2,2,2,2,2,2,2,  2,2,2,2,2,2,2,2,2,2,2,2,2,2,2,2,
  10,3,3,3,3,3,3,3,3,3,3,3,3,4,3,3, 11,6,6,6,5,8,8,8,8,8,8,8,8,8,8,8,
  0,12,24,36,60,96,84,12,12,12,48,72, 12,12,12,12,12,12,12,12,12,12,12,12,
  12, 0,12,12,12,12,12, 0,12, 0,12,12, 12,24,12,12,12,12,12,24,12,24,12,12,
  12,12,12,12,12,12,12,24,12,12,12,12, 12,24,12,12,12,12,12,12,12,24,12,12,
  12,12,12,12,12,12,12,36,12,36,12,12, 12,36,12,12,12,12,12,36,12,36,12,12,
  12,36,12,12,12,12,12,12,12,12,12,12]

/-- The function `utf8_decode` of `utf8.h` on `uint32_t` values: the new
`*state` (also the value returned) and the new `*codep`. -/
def utf8_decode (state codep byte : Nat) : Nat × Nat :=
  let type := utf8d.getD byte 0
  let codep' :=
    if state ≠ UTF8_ACCEPT then ((byte &&& 0x3f) ||| ((codep <<< 6) % 2 ^ 32))
    else (0xff >>> type) &&& byte
  (utf8d.getD (256 + state + type) 0, codep')

/-- The function `utf8_code` of `utf8.h`: the value stored in `*state` and the
bytes stored in `seq` (the pointer returned is `seq` plus their number). A
store into a `uint8_t` keeps the low eight bits. -/
def utf8_code (code : Nat) : Nat × List Nat :=
  if code ≥ 0x110000 ∨ (code ≥ 0xD800 ∧ code ≤ 0xDFFF) then (UTF8_REJECT, [])
  else if code ≥ 1 <<< 16 then
    (UTF8_ACCEPT, [(0xf0 ||| (code >>> 18)) % 256,
                   (0x80 ||| ((code >>> 12) &&& 0x3f)) % 256,
                   (0x80 ||| ((code >>> 6) &&& 0x3f)) % 256,
                   (0x80 ||| ((code >>> 0) &&& 0x3f)) % 256])
  else if code ≥ 1 <<< 11 then
    (UTF8_ACCEPT, [(0xe0 ||| (code >>> 12)) % 256,
                   (0x80 ||| ((code >>> 6) &&& 0x3f)) % 256,
                   (0x80 ||| ((code >>> 0) &&& 0x3f)) % 256])
  else if code ≥ 1 <<< 7 then
    (UTF8_ACCEPT, [(0xc0 ||| (code >>> 6)) % 256,
                   (0x80 ||| ((code >>> 0) &&& 0x3f)) % 256])
  else (UTF8_ACCEPT, [code % 256])

/-! ## Input, output and `main` (`udtc.c`) -/

/-- The messages of the calls of `fatal` that the embedding reaches. -/
inductive Fatal where
  | bad_input_utf8_sequence
  | bad_input_utf8_last_sequence
  | bad_output_utf8_sequence
  | error_in_utf8_coding
  | key1_has_length_zero
  | key2_has_length_zero
  deriving DecidableEq, Repr

/-- The loop of `read_all` over the bytes returned by `fgetc`, each cast to
`uint8_t`: the state of the automaton, the content of the slot `udata[used]`
and the code points `udata[0 .. used)`. After `used++` the slot is a fresh
one, which the next call writes before any read (the state is then
`UTF8_ACCEPT`). -/
def read_loop : List Nat → Nat → Nat → List Nat → Except Fatal (Nat × Nat × List Nat)
  | [], state, codep, udata => Except.ok (state, codep, udata)
  | c :: rest, state, codep, udata =>
    let r := utf8_decode state codep (c % 256)
    if r.1 = UTF8_ACCEPT then read_loop rest r.1 0 (udata ++ [r.2])
    else if r.1 = UTF8_REJECT then Except.error Fatal.bad_input_utf8_sequence
    else read_loop rest r.1 r.2 udata

/-- The function `read_all` of `udtc.c` on the bytes of the stream. -/
def read_all (input : List Nat) : Except Fatal (List Nat) :=
  match read_loop input UTF8_ACCEPT 0 [] with
  | Except.error e => Except.error e
  | Except.ok (state, _, udata) =>
    if state ≠ UTF8_ACCEPT then Except.error Fatal.bad_input_utf8_last_sequence
    else Except.ok udata

/-- The call `fputs((char *)data, out)`: the bytes before the first NUL. -/
def fputs (data : List Nat) : List Nat := data.takeWhile (fun b => b ≠ 0)

/-- The loop of `write_all`: the bytes written to `out` so far and, when
`fatal` is called, its message. -/
def write_loop : List Nat → List Nat → List Nat × Option Fatal
  | [], out => (out, none)
  | c :: rest, out =>
    let r := utf8_code c
    if r.1 ≠ UTF8_ACCEPT then (out, some Fatal.bad_output_utf8_sequence)
    else if r.2.length ≥ 5 then (out, some Fatal.error_in_utf8_coding)
    else write_loop rest (out ++ fputs (r.2 ++ [0]))

/-- The function `write_all` of `udtc.c`. -/
def write_all (udata : List Nat) : List Nat × Option Fatal := write_loop udata []

/-- The end of a run of the program: the bytes written to the output stream,
whether `fatal` removed the output file, and the message of `fatal` if it was
called (`none` is `return 0`). -/
structure Run where
  out : List Nat
  removed : Bool
  status : Option Fatal
  deriving DecidableEq, Repr

/-- The function `fatal` of `udtc.c` once `cleanup_fd = out` is set: a newline
goes to the output when it is `stdout`, otherwise the output file is closed and
removed. -/
def fatal (outfile : Bool) (out : List Nat) (msg : Fatal) : Run :=
  if outfile then { out := out, removed := true, status := some msg }
  else { out := out ++ [10], removed := false, status := some msg }

/-- The function `main` of `udtc.c` from the reading of the keys on. The
options are given as `crypt`, `simple` and `outfile` (whether `-o` names an
output file), the keys are what `get_key` stored. -/
def main (crypt simple outfile : Bool) (key1 key2 : List Int) (input : List Nat) : Run :=
  if key_at key1 0 = 0 then fatal outfile [] Fatal.key1_has_length_zero
  else if !simple && key_at key2 0 = 0 then fatal outfile [] Fatal.key2_has_length_zero
  else
    match read_all input with
    | Except.error e => fatal outfile [] e
    | Except.ok udata =>
      if udata.length > 0 then
        let udata :=
          if crypt then
            let u := transpose udata key1
            if !simple then transpose u key2 else u
          else
            let u := if !simple then reverse udata key2 else udata
            reverse u key1
        match write_all udata with
        | (out, none) => { out := out, removed := false, status := none }
        | (out, some e) => fatal outfile out e
      else { out := [], removed := false, status := none }

/-! ## Definitions used in the statements and proofs -/

/-- The order that `compare` gives to the sort: `a` may stay before `b`. -/
def item_le (a b : tc_item) : Bool := decide (compare a b ≤ 0)

/-- Replacing the payload of an item. -/
def set_code (f : Nat → Nat) (it : tc_item) : tc_item :=
  { code := f it.code, key := it.key, subkey := it.subkey }

deriving instance DecidableEq for Except

/-- The state reached from `state` on `byte`: the first component of
`utf8_decode`. -/
def next_state (state byte : Nat) : Nat := utf8d.getD (256 + state + utf8d.getD byte 0) 0

/-- The first part of `utf8d` as ranges of bytes. -/
def class_of (b : Nat) : Nat :=
  if b < 0x80 then 0 else if b < 0x90 then 1 else if b < 0xA0 then 9 else if b < 0xC0 then 7
  else if b < 0xC2 then 8 else if b < 0xE0 then 2 else if b = 0xE0 then 10
  else if b = 0xED then 4 else if b < 0xF0 then 3 else if b = 0xF0 then 11
  else if b < 0xF4 then 6 else if b = 0xF4 then 5 else 8

/-- The second part of `utf8d`, row by row. -/
def row (state t : Nat) : Nat :=
  if state = 0 then
    (if t = 0 then 0 else if t = 2 then 24 else if t = 3 then 36 else if t = 4 then 60
     else if t = 5 then 96 else if t = 6 then 84 else if t = 10 then 48
     else if t = 11 then 72 else 12)
  else if state = 24 then (if t = 1 ∨ t = 7 ∨ t = 9 then 0 else 12)
  else if state = 36 then (if t = 1 ∨ t = 7 ∨ t = 9 then 24 else 12)
  else if state = 48 then (if t = 7 then 24 else 12)
  else if state = 60 then (if t = 1 ∨ t = 9 then 24 else 12)
  else if state = 72 then (if t = 7 ∨ t = 9 then 36 else 12)
  else if state = 84 then (if t = 1 ∨ t = 7 ∨ t = 9 then 36 else 12)
  else if state = 96 then (if t = 1 then 36 else 12)
  else 12

/-- The least continuation byte that a state accepts. -/
def cont_lo (s : Nat) : Nat := if s = 48 then 0xA0 else if s = 72 then 0x90 else 0x80

/-- The greatest continuation byte that a state accepts. -/
def cont_hi (s : Nat) : Nat := if s = 60 then 0x9F else if s = 96 then 0x8F else 0xBF

/-- The state that follows an accepted continuation byte. -/
def cont_target (s : Nat) : Nat :=
  if s = 24 then 0 else if s = 36 ∨ s = 48 ∨ s = 60 then 24 else 36

/-- The states in which the automaton waits for a continuation byte. -/
def is_pending (s : Nat) : Prop :=
  s = 24 ∨ s = 36 ∨ s = 48 ∨ s = 60 ∨ s = 72 ∨ s = 84 ∨ s = 96

instance (s : Nat) : Decidable (is_pending s) := by
  unfold is_pending; infer_instance

/-- A Unicode scalar value: at most 0x10FFFF and no surrogate. -/
def valid_scalar (c : Nat) : Prop := c ≤ 0x10FFFF ∧ ¬ (0xD800 ≤ c ∧ c ≤ 0xDFFF)

instance (c : Nat) : Decidable (valid_scalar c) := by
  unfold valid_scalar; infer_instance

/-- What the automaton has accumulated in `*codep` when it is in a state:
the bound that keeps the code point under construction a scalar value. -/
def pending_ok (s cp : Nat) : Prop :=
  s = 0 ∨ (s = 24 ∧ cp ≤ 0x43FF ∧ ¬ (0x360 ≤ cp ∧ cp ≤ 0x37F))
    ∨ (s = 36 ∧ cp ≤ 0x10F ∧ cp ≠ 0xD) ∨ (s = 48 ∧ cp = 0) ∨ (s = 60 ∧ cp = 0xD)
    ∨ (s = 72 ∧ cp = 0) ∨ (s = 84 ∧ 1 ≤ cp ∧ cp ≤ 3) ∨ (s = 96 ∧ cp = 4)

instance (s cp : Nat) : Decidable (pending_ok s cp) := by
  unfold pending_ok; infer_instance

/-- The standard UTF-8 encoding of a scalar value, by the length thresholds
0x80, 0x800 and 0x10000. -/
def utf8_standard (c : Nat) : List Nat :=
  if c < 0x80 then [c]
  else if c < 0x800 then [0xC0 + c / 64, 0x80 + c % 64]
  else if c < 0x10000 then [0xE0 + c / 4096, 0x80 + c / 64 % 64, 0x80 + c % 64]
  else [0xF0 + c / 262144, 0x80 + c / 4096 % 64, 0x80 + c / 64 % 64, 0x80 + c % 64]

/-! ## The column picture of the specification -/

/-- Column `c` is read before column `c'`: ascending order of the pairs
`(K[c], c)`. -/
def column_before (key : List Int) (c c' : Nat) : Prop :=
  key_at key c < key_at key c' ∨ (key_at key c = key_at key c' ∧ c ≤ c')

instance (key : List Int) : DecidableRel (column_before key) := by
  intro c c'
  unfold column_before
  infer_instance

/-- The columns `0 .. min L n - 1` of a sequence of length `n` under a key of
length `L`, in the order in which they are read. -/
def columns_in_order (key : List Int) (n : Nat) : List Nat :=
  (List.range (min (strlen key) n)).insertionSort (column_before key)

/-- The positions `c, c + L, c + 2L, ...` below `n`, in increasing row order. -/
def column_indices (n L c : Nat) : List Nat :=
  ((List.range n).map (fun r => c + r * L)).filter (fun i => decide (i < n))

/-- The content of column `c`: `S[c], S[c + L], S[c + 2L], ...`. -/
def column (S : List Nat) (L c : Nat) : List Nat :=
  (column_indices S.length L c).map (fun i => S.getD i 0)

/-- The transposition as the specification describes it: the sequence is
written row by row into a matrix of `L` columns and the columns are read in
ascending order of `(K[c], c)`, each from top to bottom. -/
def transpose_columns (S : List Nat) (key : List Int) : List Nat :=
  (columns_in_order key S.length).flatMap (column S (strlen key))

/-- The item that the tagging loop builds on the index `i` under a key of
length `L`. -/
def index_item (key : List Int) (L i : Nat) : tc_item :=
  { code := i, key := key_at key (i % L), subkey := ((i % L : Nat) : Int) }

/-- The order of the sort on indices, ties broken by position. -/
def index_le (key : List Int) (L : Nat) (i j : Nat) : Bool :=
  List.enumLE (fun a b => item_le (index_item key L a) (index_item key L b)) (i, i) (j, j)

/-! ## Byte sequences around the standard encoding -/

/-- The pending state after the lead byte of a three-byte encoding. -/
def state_3 (c : Nat) : Nat := if c / 4096 = 0 then 48 else if c / 4096 = 13 then 60 else 36

/-- The pending state after the lead byte of a four-byte encoding. -/
def state_4 (c : Nat) : Nat := if c / 262144 = 0 then 72 else if c / 262144 = 4 then 96 else 84

/-- The overlong encodings of an ASCII character `c` in two, three and four
bytes. -/
def overlong_ascii (c : Nat) : List (List Nat) :=
  [[0xC0 + c / 64, 0x80 + c % 64],
   [0xE0, 0x80 + c / 64, 0x80 + c % 64],
   [0xF0, 0x80, 0x80 + c / 64, 0x80 + c % 64]]

/-- The three-byte pattern `1110xxxx 10xxxxxx 10xxxxxx` filled with the bits
of `c`; on a surrogate these are the bytes `ED A0 80 .. ED BF BF`. -/
def three_byte_form (c : Nat) : List Nat := [0xE0 + c / 4096, 0x80 + c / 64 % 64, 0x80 + c % 64]

/-! ## Streams and the two modes of `main` -/

/-- The byte stream that encodes a sequence of code points in standard
UTF-8. -/
def utf8_stream (C : List Nat) : List Nat := C.flatMap utf8_standard

/-- The permutation that `main` applies in encrypt mode. -/
def encrypt_text (simple : Bool) (key1 key2 : List Int) (text : List Nat) : List Nat :=
  if simple then transpose text key1 else transpose (transpose text key1) key2

/-- The permutation that `main` applies in decrypt mode. -/
def decrypt_text (simple : Bool) (key1 key2 : List Int) (text : List Nat) : List Nat :=
  if simple then reverse text key1 else reverse (reverse text key2) key1

/-! ## The end of `main` and the feed of `utf8_decode` -/

/-- What `main` returns once `write_all` has run: `return 0`, or the call of
`fatal` that `write_all` made. -/
def finish (outfile : Bool) (r : List Nat × Option Fatal) : Run :=
  match r with
  | (out, none) => { out := out, removed := false, status := none }
  | (out, some e) => fatal outfile out e

/-- The text that `main` hands to `write_all`. -/
def permuted_text (crypt simple : Bool) (key1 key2 : List Int) (text : List Nat) : List Nat :=
  if crypt then encrypt_text simple key1 key2 text else decrypt_text simple key1 key2 text

/-- The successive results of `utf8_decode` when the bytes are fed one by one,
each call starting from the state and the code point that the previous call
left. -/
def decode_feed : Nat → Nat → List Nat → List (Nat × Nat)
  | _, _, [] => []
  | state, codep, b :: bs =>
    utf8_decode state codep b
      :: decode_feed (utf8_decode state codep b).1 (utf8_decode state codep b).2 bs

/-- The state after the last call of a feed that started in `state`. -/
def final_state (state : Nat) (trace : List (Nat × Nat)) : Nat :=
  (trace.getLast?.map Prod.fst).getD state

/-- The code points that a feed has completed: the code point of every call
that returned `UTF8_ACCEPT`. -/
def emitted (trace : List (Nat × Nat)) : List Nat :=
  (trace.filter (fun r => decide (r.1 = UTF8_ACCEPT))).map Prod.snd

/-! ## Machine integers in `compare` -/

/-- The values of the C type `int` (32 bits). -/
def int_range (x : Int) : Prop := -2147483648 ≤ x ∧ x ≤ 2147483647

instance (x : Int) : Decidable (int_range x) := by
  unfold int_range; infer_instance

/-- The value that a machine with 32-bit two's complement `int` keeps of a
result. -/
def wrap_int (x : Int) : Int := (x + 2147483648) % 4294967296 - 2147483648

/-- The function `compare` with the two subtractions made in 32-bit `int`. -/
def compare_int (a b : tc_item) : Int :=
  if a.key = b.key then wrap_int (a.subkey - b.subkey) else wrap_int (a.key - b.key)

/-- The values of the C type `char` converted to `int`, whether `char` is
signed or not. -/
def char_value (c : Int) : Prop := -128 ≤ c ∧ c ≤ 255

instance (c : Int) : Decidable (char_value c) := by
  unfold char_value; infer_instance

/-- The pair `(key, subkey)` of `a` is lexicographically less than that of
`b`. -/
def lex_lt (a b : tc_item) : Prop := a.key < b.key ∨ (a.key = b.key ∧ a.subkey < b.subkey)

instance (a b : tc_item) : Decidable (lex_lt a b) := by
  unfold lex_lt; infer_instance

/-- The fields of an item built by the tagging loop on a text of length `len`:
the key is a `char`, the subkey a column below `len`. -/
def tagged_item (len : Nat) (a : tc_item) : Prop :=
  char_value a.key ∧ 0 ≤ a.subkey ∧ a.subkey < (len : Int)

/-- The fields of an item after the re-tagging loop of `reverse` on a text of
length `len`: the key is an index below `len`, the subkey a column below
`len`. -/
def retagged_item (len : Nat) (a : tc_item) : Prop :=
  0 ≤ a.key ∧ a.key < (len : Int) ∧ 0 ≤ a.subkey ∧ a.subkey < (len : Int)

/-! ## Facts about `compare` and the sort -/

theorem compare_le_iff (a b : tc_item) :
    compare a b ≤ 0 ↔ a.key < b.key ∨ (a.key = b.key ∧ a.subkey ≤ b.subkey) := by
  unfold compare
  split <;> omega

theorem merge_eq (fuel : Nat) (xs ys : List tc_item) (h : xs.length + ys.length ≤ fuel) :
    merge compare fuel xs ys = List.merge xs ys item_le := by
  induction fuel generalizing xs ys with
  | zero =>
    have hx : xs = [] := List.length_eq_zero.mp (by omega)
    have hy : ys = [] := List.length_eq_zero.mp (by omega)
    subst hx hy
    simp [merge]
  | succ fuel ih =>
    cases xs with
    | nil => simp [merge]
    | cons x xs =>
      cases ys with
      | nil => simp [merge]
      | cons y ys =>
        simp only [List.length_cons] at h
        rw [merge, List.cons_merge_cons]
        by_cases hxy : compare x y ≤ 0
        · rw [if_pos hxy, if_pos (by simpa [item_le] using hxy), ih _ _ (by simp; omega)]
        · rw [if_neg hxy, if_neg (by simpa [item_le] using hxy), ih _ _ (by simp; omega)]

theorem sort_run_eq : ∀ (fuel : Nat) (l : List tc_item), l.length ≤ fuel →
    sort_run compare fuel l = l.mergeSort item_le
  | 0, l, h => by
    have hl : l = [] := List.length_eq_zero.mp (by omega)
    subst hl
    simp [sort_run]
  | _ + 1, [], _ => by simp [sort_run]
  | _ + 1, [a], _ => by simp [sort_run]
  | fuel + 1, a :: b :: xs, h => by
    simp only [List.length_cons] at h
    rw [sort_run, List.mergeSort, if_neg (by simp)]
    simp only [List.splitInTwo_fst, List.splitInTwo_snd]
    rw [sort_run_eq fuel _ (by simp; omega), sort_run_eq fuel _ (by simp; omega), merge_eq]
    simp
    omega

/-- The sort of the embedding is the stable merge sort of the core library. -/
theorem mergesort_eq (items : List tc_item) :
    mergesort items compare = items.mergeSort item_le :=
  sort_run_eq items.length items (Nat.le_refl _)

theorem item_le_iff (a b : tc_item) :
    item_le a b = true ↔ a.key < b.key ∨ (a.key = b.key ∧ a.subkey ≤ b.subkey) := by
  simp [item_le, compare_le_iff]

theorem item_le_trans (a b c : tc_item) (h₁ : item_le a b = true) (h₂ : item_le b c = true) :
    item_le a c = true := by
  rw [item_le_iff] at *
  omega

theorem item_le_total (a b : tc_item) : (item_le a b || item_le b a) = true := by
  rw [Bool.or_eq_true, item_le_iff, item_le_iff]
  omega

theorem mergesort_perm (items : List tc_item) : (mergesort items compare).Perm items := by
  rw [mergesort_eq]
  exact List.mergeSort_perm _ _

theorem mergesort_sorted (items : List tc_item) :
    (mergesort items compare).Pairwise (fun a b => item_le a b = true) := by
  rw [mergesort_eq]
  exact List.sorted_mergeSort item_le_trans item_le_total items

theorem item_le_set_code (f : Nat → Nat) (a b : tc_item) :
    item_le (set_code f a) (set_code f b) = item_le a b := rfl

/-- The sort only looks at the tags: it commutes with a change of payload. -/
theorem mergesort_map_set_code (f : Nat → Nat) (items : List tc_item) :
    mergesort (items.map (set_code f)) compare = (mergesort items compare).map (set_code f) := by
  rw [mergesort_eq, mergesort_eq]
  exact (List.map_mergeSort (fun a _ b _ => (item_le_set_code f a b).symm)).symm

theorem fill_items_map (key : List Int) (f : Nat → Nat) (cs : List Nat) (k : Nat) :
    fill_items key k (cs.map f) = (fill_items key k cs).map (set_code f) := by
  induction cs generalizing k with
  | nil => rfl
  | cons c cs ih => simp [fill_items, ih, set_code]

theorem fill_items_length (key : List Int) (cs : List Nat) (k : Nat) :
    (fill_items key k cs).length = cs.length := by
  induction cs generalizing k with
  | nil => rfl
  | cons c cs ih => simp [fill_items, ih]

theorem fill_items_codes (key : List Int) (cs : List Nat) (k : Nat) :
    (fill_items key k cs).map (fun it => it.code) = cs := by
  induction cs generalizing k with
  | nil => rfl
  | cons c cs ih => simp [fill_items, ih]

theorem map_getD_range (S : List Nat) : (List.range S.length).map (fun i => S.getD i 0) = S := by
  apply List.ext_getElem
  · simp
  · intro i h₁ h₂
    simp [List.getD_eq_getElem?_getD, List.getElem?_eq_getElem h₂]

/-- The output of `transpose` reads `msg` through the Phase A indices. -/
theorem transpose_eq_map_indices (S : List Nat) (key : List Int) :
    transpose S key = (phase_a_indices S.length key).map (fun i => S.getD i 0) := by
  unfold transpose phase_a_indices phase_a
  conv_lhs => rw [← map_getD_range S, fill_items_map, mergesort_map_set_code]
  simp [List.map_map, Function.comp_def, set_code]

theorem phase_a_indices_perm (len : Nat) (key : List Int) :
    (phase_a_indices len key).Perm (List.range len) := by
  unfold phase_a_indices phase_a
  have h := (mergesort_perm (fill_items key 0 (List.range len))).map (fun it => it.code)
  rwa [fill_items_codes] at h

theorem phase_a_length (len : Nat) (key : List Int) : (phase_a len key).length = len := by
  simp [phase_a, mergesort_eq, fill_items_length]

theorem transpose_length (S : List Nat) (key : List Int) : (transpose S key).length = S.length := by
  simp [transpose, mergesort_eq, fill_items_length]

theorem retag_map (items : List tc_item) (f : Nat → Nat) :
    retag items (items.map (fun it => f it.code))
      = items.map (fun it => ({ code := f it.code, key := (it.code : Int), subkey := it.subkey } : tc_item)) := by
  induction items with
  | nil => rfl
  | cons a l ih =>
    simp only [retag, List.map_cons, List.zipWith_cons_cons] at ih ⊢
    rw [ih]

theorem sorted_range_int (n : Nat) :
    ((List.range n).map (fun i : Nat => (i : Int))).Pairwise (fun a b => a ≤ b) := by
  rw [List.pairwise_map]
  refine (List.pairwise_lt_range n).imp ?_
  intro a b h
  show (a : Int) ≤ (b : Int)
  omega

/-- Sorting items whose keys are the indices `0 .. n - 1`, each carrying the
element of `S` at its key, gives `S`: the second sort of `reverse`. -/
theorem sort_by_index (S : List Nat) (Y : List tc_item)
    (hk : (Y.map (fun it => it.key)).Perm ((List.range S.length).map (fun i : Nat => (i : Int))))
    (hc : ∀ it ∈ Y, it.code = S.getD it.key.toNat 0) :
    (mergesort Y compare).map (fun it => it.code) = S := by
  have hperm := mergesort_perm Y
  have hkeys : (mergesort Y compare).map (fun it => it.key)
      = (List.range S.length).map (fun i : Nat => (i : Int)) := by
    apply @List.eq_of_perm_of_sorted Int (fun a b => a ≤ b) _ _ _ ((hperm.map _).trans hk)
    · rw [List.Sorted, List.pairwise_map]
      refine (mergesort_sorted Y).imp ?_
      intro a b h
      rw [item_le_iff] at h
      show a.key ≤ b.key
      omega
    · exact sorted_range_int _
  have hcode : (mergesort Y compare).map (fun it => it.code)
      = ((mergesort Y compare).map (fun it => it.key)).map (fun k => S.getD k.toNat 0) := by
    rw [List.map_map]
    apply List.map_congr_left
    intro it hit
    exact hc it (hperm.mem_iff.mp hit)
  rw [hcode, hkeys, List.map_map]
  have hf : (fun k : Int => S.getD k.toNat 0) ∘ (fun i : Nat => (i : Int)) = fun i => S.getD i 0 := by
    funext i
    simp
  rw [hf]
  exact map_getD_range S

theorem reverse_transpose (S : List Nat) (key : List Int) :
    reverse (transpose S key) key = S := by
  unfold reverse
  rw [transpose_length, transpose_eq_map_indices]
  unfold phase_a_indices
  rw [List.map_map]
  have hr := retag_map (phase_a S.length key) (fun i => S.getD i 0)
  simp only [Function.comp_def] at hr ⊢
  rw [hr]
  apply sort_by_index
  · rw [List.map_map]
    have h := List.Perm.map (fun i : Nat => (i : Int)) (phase_a_indices_perm S.length key)
    rw [phase_a_indices, List.map_map] at h
    exact h
  · intro it hit
    rw [List.mem_map] at hit
    obtain ⟨a, _, rfl⟩ := hit
    simp


/-! ## The decoding automaton -/

set_option maxRecDepth 100000 in
theorem class_check : ∀ b : Fin 256, utf8d.getD b.val 0 = class_of b.val := by
  decide!

set_option maxRecDepth 100000 in
theorem row_check : ∀ k : Fin 9, ∀ t : Fin 12,
    utf8d.getD (256 + 12 * k.val + t.val) 0 = row (12 * k.val) t.val := by
  decide!

set_option maxRecDepth 100000 in
theorem class_of_lt_check : ∀ b : Fin 256, class_of b.val < 12 := by
  decide!

set_option maxRecDepth 100000 in
theorem row_cont_check : ∀ k : Fin 7, ∀ b : Fin 256,
    row (12 * (k.val + 2)) (class_of b.val)
      = if cont_lo (12 * (k.val + 2)) ≤ b.val ∧ b.val ≤ cont_hi (12 * (k.val + 2))
        then cont_target (12 * (k.val + 2)) else 12 := by
  decide!

set_option maxRecDepth 100000 in
theorem row_reject_check : ∀ b : Fin 256, row 12 (class_of b.val) = 12 := by
  decide!

set_option maxRecDepth 100000 in
theorem start_check : ∀ b : Fin 256,
    row 0 (class_of b.val) = 12
      ∨ (pending_ok (row 0 (class_of b.val)) ((0xff >>> class_of b.val) &&& b.val)
          ∧ (row 0 (class_of b.val) = 0 → valid_scalar ((0xff >>> class_of b.val) &&& b.val))) := by
  decide!

theorem utf8d_class (b : Nat) (h : b < 256) : utf8d.getD b 0 = class_of b :=
  class_check ⟨b, h⟩

theorem pending_mul (s : Nat) (h : is_pending s) : ∃ k : Fin 7, s = 12 * (k.val + 2) := by
  rcases h with h | h | h | h | h | h | h
  · exact ⟨0, h⟩
  · exact ⟨1, h⟩
  · exact ⟨2, h⟩
  · exact ⟨3, h⟩
  · exact ⟨4, h⟩
  · exact ⟨5, h⟩
  · exact ⟨6, h⟩

theorem next_state_start (b : Nat) (hb : b < 256) : next_state 0 b = row 0 (class_of b) := by
  unfold next_state
  rw [utf8d_class b hb]
  exact row_check 0 ⟨class_of b, class_of_lt_check ⟨b, hb⟩⟩

theorem next_state_reject (b : Nat) (hb : b < 256) : next_state 12 b = 12 := by
  unfold next_state
  rw [utf8d_class b hb]
  exact (row_check 1 ⟨class_of b, class_of_lt_check ⟨b, hb⟩⟩).trans (row_reject_check ⟨b, hb⟩)

/-- In a pending state a byte of the range of the state leads to the target
of the state, any other byte to `UTF8_REJECT`. -/
theorem next_state_pending (s b : Nat) (hs : is_pending s) (hb : b < 256) :
    next_state s b = if cont_lo s ≤ b ∧ b ≤ cont_hi s then cont_target s else 12 := by
  obtain ⟨k, rfl⟩ := pending_mul s hs
  unfold next_state
  rw [utf8d_class b hb]
  have h := row_check ⟨k.val + 2, by omega⟩ ⟨class_of b, class_of_lt_check ⟨b, hb⟩⟩
  exact h.trans (row_cont_check k ⟨b, hb⟩)


theorem utf8_decode_state (s cp b : Nat) : (utf8_decode s cp b).1 = next_state s b := rfl

theorem utf8_decode_start (cp b : Nat) :
    (utf8_decode 0 cp b).2 = (0xff >>> utf8d.getD b 0) &&& b := by
  simp [utf8_decode, UTF8_ACCEPT]

theorem utf8_decode_cont (s cp b : Nat) (hs : s ≠ 0) :
    (utf8_decode s cp b).2 = (b &&& 0x3f) ||| ((cp <<< 6) % 2 ^ 32) := by
  simp [utf8_decode, UTF8_ACCEPT, hs]

/-- The accumulation step on a value that fits: six more bits. -/
theorem cont_bits (cp b : Nat) (hcp : cp < 2 ^ 26) :
    (b &&& 0x3f) ||| ((cp <<< 6) % 2 ^ 32) = cp * 64 + b % 64 := by
  have h1 : b &&& 0x3f = b % 2 ^ 6 := Nat.and_pow_two_sub_one_eq_mod b 6
  have h2 : cp <<< 6 = 2 ^ 6 * cp := by rw [Nat.shiftLeft_eq, Nat.mul_comm]
  have h3 : (2 ^ 6 * cp) % 2 ^ 32 = 2 ^ 6 * cp := Nat.mod_eq_of_lt (by omega)
  have h4 : b % 2 ^ 6 < 2 ^ 6 := Nat.mod_lt _ (by norm_num)
  rw [h1, h2, h3, Nat.or_comm, ← Nat.mul_add_lt_is_or h4 cp]
  omega

theorem is_pending_ne_zero (s : Nat) (h : is_pending s) : s ≠ 0 := by
  unfold is_pending at h
  omega

/-- A step from a pending state: the byte is rejected, or it lies in the range
of the state and six bits are added to the code point. -/
theorem step_pending (s cp b : Nat) (hs : is_pending s) (hb : b < 256) (hcp : cp < 2 ^ 26) :
    next_state s b = 12
      ∨ (cont_lo s ≤ b ∧ b ≤ cont_hi s ∧ utf8_decode s cp b = (cont_target s, cp * 64 + b % 64)) := by
  by_cases h : cont_lo s ≤ b ∧ b ≤ cont_hi s
  · right
    refine ⟨h.1, h.2, ?_⟩
    apply Prod.ext
    · rw [utf8_decode_state, next_state_pending s b hs hb, if_pos h]
    · rw [utf8_decode_cont s cp b (is_pending_ne_zero s hs), cont_bits cp b hcp]
  · left
    rw [next_state_pending s b hs hb, if_neg h]

theorem pending_ok_state (s cp : Nat) (h : pending_ok s cp) : s = 0 ∨ is_pending s := by
  unfold pending_ok at h
  unfold is_pending
  omega

theorem pending_ok_bound (s cp : Nat) (h : pending_ok s cp) (hs : s ≠ 0) : cp < 2 ^ 26 := by
  unfold pending_ok at h
  omega

/-- One call of `utf8_decode` keeps the bound on the accumulated value, and a
code point completed by the call is a scalar value. -/
theorem step_ok (s cp b : Nat) (hb : b < 256) (h : pending_ok s cp) :
    next_state s b = 12
      ∨ (pending_ok (utf8_decode s cp b).1 (utf8_decode s cp b).2
          ∧ ((utf8_decode s cp b).1 = 0 → valid_scalar (utf8_decode s cp b).2)) := by
  rcases pending_ok_state s cp h with h0 | hp
  · subst h0
    have hc := start_check ⟨b, hb⟩
    simp only [] at hc
    rw [utf8_decode_state, utf8_decode_start, utf8d_class b hb, next_state_start b hb]
    exact hc
  · have hcp := pending_ok_bound s cp h (is_pending_ne_zero s hp)
    rcases step_pending s cp b hp hb hcp with hr | ⟨hlo, hhi, heq⟩
    · exact Or.inl hr
    · right
      rw [heq]
      simp only []
      unfold pending_ok at h
      unfold is_pending at hp
      unfold valid_scalar
      rcases hp with hs | hs | hs | hs | hs | hs | hs <;> subst hs <;>
        simp only [cont_lo, cont_hi, cont_target, pending_ok] at hlo hhi ⊢ <;>
        norm_num at hlo hhi h ⊢ <;> omega

theorem read_loop_nil (s cp : Nat) (u : List Nat) :
    read_loop [] s cp u = Except.ok (s, cp, u) := rfl

theorem read_loop_cons (c : Nat) (rest : List Nat) (s cp : Nat) (u : List Nat) :
    read_loop (c :: rest) s cp u =
      if next_state s (c % 256) = 0 then
        read_loop rest 0 0 (u ++ [(utf8_decode s cp (c % 256)).2])
      else if next_state s (c % 256) = 12 then Except.error Fatal.bad_input_utf8_sequence
      else read_loop rest (next_state s (c % 256)) (utf8_decode s cp (c % 256)).2 u := by
  rw [read_loop]
  simp only [utf8_decode_state, UTF8_ACCEPT, UTF8_REJECT]
  split_ifs with h <;> simp [h]

/-- The loop of `read_all` keeps the bound on the pending value and stores
scalar values only. -/
theorem read_loop_inv (input : List Nat) : ∀ (s cp : Nat) (u : List Nat),
    pending_ok s cp → (∀ c ∈ u, valid_scalar c) →
    ∀ (s' cp' : Nat) (u' : List Nat), read_loop input s cp u = Except.ok (s', cp', u') →
      pending_ok s' cp' ∧ ∀ c ∈ u', valid_scalar c := by
  induction input with
  | nil =>
    intro s cp u hp hu s' cp' u' h
    rw [read_loop_nil] at h
    injection h with h
    injection h with h1 h2
    injection h2 with h2 h3
    subst h1 h2 h3
    exact ⟨hp, hu⟩
  | cons c rest ih =>
    intro s cp u hp hu s' cp' u' h
    rw [read_loop_cons] at h
    have hb : c % 256 < 256 := Nat.mod_lt _ (by norm_num)
    have hstep := step_ok s cp (c % 256) hb hp
    rw [utf8_decode_state] at hstep
    split_ifs at h with h0 h12
    · rcases hstep with hr | ⟨_, hv⟩
      · omega
      · refine ih 0 0 _ (Or.inl rfl) ?_ s' cp' u' h
        intro x hx
        rcases List.mem_append.mp hx with hx | hx
        · exact hu x hx
        · rw [List.mem_singleton] at hx
          subst hx
          exact hv h0
    · rcases hstep with hr | ⟨hp', _⟩
      · exact absurd hr h12
      · exact ih _ _ u hp' hu s' cp' u' h

theorem read_loop_error (input : List Nat) : ∀ (s cp : Nat) (u : List Nat) (e : Fatal),
    read_loop input s cp u = Except.error e → e = Fatal.bad_input_utf8_sequence := by
  induction input with
  | nil =>
    intro s cp u e h
    rw [read_loop_nil] at h
    cases h
  | cons c rest ih =>
    intro s cp u e h
    rw [read_loop_cons] at h
    split_ifs at h
    · exact ih _ _ _ e h
    · injection h with h
      exact h.symm
    · exact ih _ _ _ e h

/-- Reading a stream in two parts. -/
theorem read_loop_append (P Q : List Nat) : ∀ (s cp : Nat) (u : List Nat),
    read_loop (P ++ Q) s cp u =
      match read_loop P s cp u with
      | Except.error e => Except.error e
      | Except.ok (s', cp', u') => read_loop Q s' cp' u' := by
  induction P with
  | nil => intro s cp u; rfl
  | cons c rest ih =>
    intro s cp u
    rw [List.cons_append, read_loop_cons, read_loop_cons]
    split_ifs
    · exact ih _ _ _
    · rfl
    · exact ih _ _ _

theorem utf8_code_accept_iff (c : Nat) : (utf8_code c).1 = UTF8_ACCEPT ↔ valid_scalar c := by
  unfold utf8_code valid_scalar
  split_ifs with h <;> simp [UTF8_ACCEPT, UTF8_REJECT] <;> omega

theorem retag_codes (items : List tc_item) : ∀ (msg : List Nat), msg.length ≤ items.length →
    (retag items msg).map (fun it => it.code) = msg := by
  induction items with
  | nil =>
    intro msg h
    have : msg = [] := List.length_eq_zero.mp (by simpa using h)
    subst this
    rfl
  | cons a l ih =>
    intro msg h
    cases msg with
    | nil => rfl
    | cons m ms =>
      simp only [retag, List.zipWith_cons_cons, List.map_cons, List.cons.injEq, true_and]
      exact ih ms (by simpa using h)

theorem transpose_perm (S : List Nat) (key : List Int) : (transpose S key).Perm S := by
  unfold transpose
  have h := (mergesort_perm (fill_items key 0 S)).map (fun it => it.code)
  rwa [fill_items_codes] at h

theorem reverse_perm (S : List Nat) (key : List Int) : (reverse S key).Perm S := by
  unfold reverse
  have h := (mergesort_perm (retag (phase_a S.length key) S)).map (fun it => it.code)
  rwa [retag_codes _ _ (by rw [phase_a_length])] at h

theorem reverse_length (S : List Nat) (key : List Int) : (reverse S key).length = S.length :=
  (reverse_perm S key).length_eq

/-! ## The encoder -/

theorem or_80_check : ∀ x : Fin 64, 0x80 ||| x.val = 0x80 + x.val := by decide

theorem or_c0_check : ∀ x : Fin 32, 0xc0 ||| x.val = 0xC0 + x.val := by decide

theorem or_e0_check : ∀ x : Fin 16, 0xe0 ||| x.val = 0xE0 + x.val := by decide

theorem or_f0_check : ∀ x : Fin 8, 0xf0 ||| x.val = 0xF0 + x.val := by decide

theorem or_80 (x : Nat) (h : x < 64) : 0x80 ||| x = 0x80 + x := or_80_check ⟨x, h⟩

theorem or_c0 (x : Nat) (h : x < 32) : 0xc0 ||| x = 0xC0 + x := or_c0_check ⟨x, h⟩

theorem or_e0 (x : Nat) (h : x < 16) : 0xe0 ||| x = 0xE0 + x := or_e0_check ⟨x, h⟩

theorem or_f0 (x : Nat) (h : x < 8) : 0xf0 ||| x = 0xF0 + x := or_f0_check ⟨x, h⟩

theorem and_3f (x : Nat) : x &&& 0x3f = x % 64 := Nat.and_pow_two_sub_one_eq_mod x 6

/-- A continuation byte as `utf8_code` computes it. -/
theorem cont_byte (x : Nat) : (0x80 ||| (x &&& 0x3f)) % 256 = 0x80 + x % 64 := by
  rw [and_3f, or_80 (x % 64) (Nat.mod_lt _ (by norm_num))]
  omega

theorem lead_byte_2 (c : Nat) (h : c < 0x800) : (0xc0 ||| (c >>> 6)) % 256 = 0xC0 + c / 64 := by
  rw [Nat.shiftRight_eq_div_pow, or_c0 (c / 2 ^ 6) (by omega)]
  omega

theorem lead_byte_3 (c : Nat) (h : c < 0x10000) : (0xe0 ||| (c >>> 12)) % 256 = 0xE0 + c / 4096 := by
  rw [Nat.shiftRight_eq_div_pow, or_e0 (c / 2 ^ 12) (by omega)]
  omega

theorem lead_byte_4 (c : Nat) (h : c < 0x110000) :
    (0xf0 ||| (c >>> 18)) % 256 = 0xF0 + c / 262144 := by
  rw [Nat.shiftRight_eq_div_pow, or_f0 (c / 2 ^ 18) (by omega)]
  omega

/-- On a scalar value `utf8_code` accepts and stores the standard encoding. -/
theorem utf8_code_valid (c : Nat) (h : valid_scalar c) :
    utf8_code c = (UTF8_ACCEPT, utf8_standard c) := by
  unfold valid_scalar at h
  have h16 : (1 : Nat) <<< 16 = 0x10000 := by decide
  have h11 : (1 : Nat) <<< 11 = 0x800 := by decide
  have h7 : (1 : Nat) <<< 7 = 0x80 := by decide
  unfold utf8_code utf8_standard
  rw [h16, h11, h7]
  rw [if_neg (by omega)]
  by_cases c4 : c ≥ 0x10000
  · rw [if_pos c4, if_neg (by omega), if_neg (by omega), if_neg (by omega)]
    rw [cont_byte, cont_byte, cont_byte, lead_byte_4 c (by omega)]
    simp [Nat.shiftRight_eq_div_pow]
  · rw [if_neg c4]
    by_cases c3 : c ≥ 0x800
    · rw [if_pos c3, if_neg (by omega), if_neg (by omega), if_pos (by omega)]
      rw [cont_byte, cont_byte, lead_byte_3 c (by omega)]
      simp [Nat.shiftRight_eq_div_pow]
    · rw [if_neg c3]
      by_cases c2 : c ≥ 0x80
      · rw [if_pos c2, if_neg (by omega), if_pos (by omega)]
        rw [cont_byte, lead_byte_2 c (by omega)]
        simp [Nat.shiftRight_eq_div_pow]
      · rw [if_neg c2, if_pos (by omega)]
        rw [Nat.mod_eq_of_lt (by omega)]

theorem utf8_code_invalid (c : Nat) (h : ¬ valid_scalar c) : utf8_code c = (UTF8_REJECT, []) := by
  unfold valid_scalar at h
  unfold utf8_code
  rw [if_pos (by omega)]

theorem utf8_standard_length (c : Nat) : (utf8_standard c).length < 5 := by
  unfold utf8_standard
  split_ifs <;> simp

/-- On scalar values the loop of `write_all` does not call `fatal`: it writes
the encoding of each code point up to its first NUL byte. -/
theorem write_loop_valid (cs : List Nat) : ∀ (out : List Nat), (∀ c ∈ cs, valid_scalar c) →
    write_loop cs out = (out ++ cs.flatMap (fun c => fputs (utf8_standard c ++ [0])), none) := by
  induction cs with
  | nil => intro out _; simp [write_loop]
  | cons c rest ih =>
    intro out h
    have hc := utf8_code_valid c (h c (List.mem_cons_self _ _))
    rw [write_loop, hc]
    simp only [ne_eq, not_true_eq_false, if_false]
    rw [if_neg (by have := utf8_standard_length c; omega)]
    rw [ih _ (fun x hx => h x (List.mem_cons_of_mem _ hx))]
    simp [List.flatMap_cons, List.append_assoc]

theorem read_all_ok (B u : List Nat) (h : read_all B = Except.ok u) :
    ∃ cp, read_loop B UTF8_ACCEPT 0 [] = Except.ok (UTF8_ACCEPT, cp, u) := by
  unfold read_all at h
  split at h
  · cases h
  · rename_i state cp udata heq
    split_ifs at h with hs
    injection h with h
    subst h
    have hs' : state = UTF8_ACCEPT := by simpa using hs
    subst hs'
    exact ⟨cp, heq⟩

theorem read_all_valid (B u : List Nat) (h : read_all B = Except.ok u) :
    ∀ c ∈ u, valid_scalar c := by
  obtain ⟨cp, h⟩ := read_all_ok B u h
  exact (read_loop_inv B 0 0 [] (Or.inl rfl) (by simp) _ _ _ h).2

/-! ## The tagging loop and the columns -/

theorem strlen_cons (a : Int) (l : List Int) :
    strlen (a :: l) = if a ≠ 0 then strlen l + 1 else 0 := by
  unfold strlen
  by_cases h : a = 0 <;> simp [List.takeWhile_cons, h]

theorem key_at_strlen (key : List Int) : key_at key (strlen key) = 0 := by
  induction key with
  | nil => rfl
  | cons a l ih =>
    rw [strlen_cons]
    by_cases h : a = 0
    · simp [h, key_at]
    · rw [if_pos h]
      simpa [key_at] using ih

theorem key_at_ne_zero (key : List Int) : ∀ j, j < strlen key → key_at key j ≠ 0 := by
  induction key with
  | nil => intro j h; simp [strlen] at h
  | cons a l ih =>
    intro j h
    rw [strlen_cons] at h
    by_cases ha : a = 0
    · simp [ha] at h
    · rw [if_pos ha] at h
      cases j with
      | zero => simpa [key_at] using ha
      | succ j =>
        have := ih j (by omega)
        simpa [key_at] using this

theorem strlen_pos (key : List Int) (h : key_nonempty key) : 0 < strlen key := by
  by_contra h0
  have h1 : strlen key = 0 := by omega
  have h2 := key_at_strlen key
  rw [h1] at h2
  exact h h2

theorem next_k_eq (key : List Int) (k : Nat) (h : k < strlen key) :
    next_k key k = (k + 1) % strlen key := by
  unfold next_k
  by_cases h1 : k + 1 < strlen key
  · rw [if_neg (key_at_ne_zero key _ h1), Nat.mod_eq_of_lt h1]
  · have h2 : k + 1 = strlen key := by omega
    rw [h2, key_at_strlen, if_pos rfl, Nat.mod_self]

/-- The tagging loop on consecutive indices: position `i` gets the key
character and the column of `i mod L`. -/
theorem fill_items_range (key : List Int) (h : 0 < strlen key) (m : Nat) : ∀ a : Nat,
    fill_items key (a % strlen key) (List.range' a m)
      = (List.range' a m).map (index_item key (strlen key)) := by
  induction m with
  | zero => intro a; rfl
  | succ m ih =>
    intro a
    rw [List.range'_succ, fill_items, List.map_cons, next_k_eq key _ (Nat.mod_lt _ h),
      Nat.mod_add_mod, ih (a + 1)]
    rfl

theorem phase_a_eq (key : List Int) (h : 0 < strlen key) (n : Nat) :
    phase_a n key
      = ((List.range n).mergeSort
          (fun a b => item_le (index_item key (strlen key) a) (index_item key (strlen key) b))).map
          (index_item key (strlen key)) := by
  unfold phase_a
  rw [mergesort_eq, List.range_eq_range']
  have h0 := fill_items_range key h n 0
  rw [Nat.zero_mod] at h0
  rw [h0]
  exact (@List.map_mergeSort Nat tc_item
    (fun a b => item_le (index_item key (strlen key) a) (index_item key (strlen key) b))
    item_le (index_item key (strlen key)) (List.range' 0 n) (fun a _ b _ => rfl)).symm

theorem enum_range (n : Nat) : (List.range n).enum = (List.range n).map (fun i => (i, i)) := by
  apply List.ext_getElem
  · simp
  · intro i h1 h2
    simp

/-- The Phase A indices are the indices sorted by tag, ties by position. -/
theorem phase_a_indices_eq (key : List Int) (h : 0 < strlen key) (n : Nat) :
    phase_a_indices n key = (List.range n).mergeSort (index_le key (strlen key)) := by
  unfold phase_a_indices
  rw [phase_a_eq key h n, List.map_map]
  have hid : (fun it : tc_item => it.code) ∘ index_item key (strlen key) = id := by
    funext i
    rfl
  rw [hid, List.map_id, ← List.mergeSort_enum, enum_range]
  have hm := @List.map_mergeSort Nat (Nat × Nat) (index_le key (strlen key))
    (List.enumLE (fun a b => item_le (index_item key (strlen key) a) (index_item key (strlen key) b)))
    (fun i => (i, i)) (List.range n) (fun a _ b _ => rfl)
  rw [← hm, List.map_map]
  have hid2 : (fun p : Nat × Nat => p.2) ∘ (fun i : Nat => (i, i)) = id := by
    funext i
    rfl
  rw [hid2, List.map_id]

theorem index_le_iff (key : List Int) (L i j : Nat) :
    index_le key L i j = true ↔
      (key_at key (i % L) < key_at key (j % L)
          ∨ (key_at key (i % L) = key_at key (j % L) ∧ i % L < j % L))
        ∨ (key_at key (i % L) = key_at key (j % L) ∧ i % L = j % L ∧ i ≤ j) := by
  unfold index_le List.enumLE
  simp only []
  have e1 := item_le_iff (index_item key L i) (index_item key L j)
  have e2 := item_le_iff (index_item key L j) (index_item key L i)
  revert e1 e2
  generalize item_le (index_item key L i) (index_item key L j) = p
  generalize item_le (index_item key L j) (index_item key L i) = q
  intro e1 e2
  simp only [index_item] at e1 e2
  revert e1 e2
  generalize key_at key (i % L) = x
  generalize key_at key (j % L) = y
  generalize i % L = a
  generalize j % L = b
  intro e1 e2
  cases p <;> cases q <;>
    simp only [Bool.false_eq_true, if_false, if_true, decide_eq_true_eq, true_iff, false_iff,
      eq_self_iff_true] at e1 e2 ⊢ <;>
    omega

theorem index_le_trans (key : List Int) (L : Nat) (a b c : Nat)
    (h1 : index_le key L a b = true) (h2 : index_le key L b c = true) :
    index_le key L a c = true := by
  rw [index_le_iff] at *
  omega

theorem index_le_total (key : List Int) (L : Nat) (a b : Nat) :
    (index_le key L a b || index_le key L b a) = true := by
  rw [Bool.or_eq_true, index_le_iff, index_le_iff]
  omega

theorem index_le_antisymm (key : List Int) (L : Nat) (a b : Nat)
    (h1 : index_le key L a b = true) (h2 : index_le key L b a = true) : a = b := by
  rw [index_le_iff] at *
  omega

theorem column_before_total (key : List Int) (a b : Nat) :
    column_before key a b ∨ column_before key b a := by
  unfold column_before
  omega

theorem column_before_trans (key : List Int) (a b c : Nat)
    (h1 : column_before key a b) (h2 : column_before key b c) : column_before key a c := by
  unfold column_before at *
  omega

theorem columns_perm (key : List Int) (n : Nat) :
    (columns_in_order key n).Perm (List.range (min (strlen key) n)) :=
  List.perm_insertionSort _ _

theorem columns_sorted (key : List Int) (n : Nat) :
    (columns_in_order key n).Pairwise (fun c c' => column_before key c c' ∧ c ≠ c') := by
  haveI : IsTotal Nat (column_before key) := ⟨column_before_total key⟩
  haveI : IsTrans Nat (column_before key) := ⟨column_before_trans key⟩
  have h1 : (columns_in_order key n).Pairwise (column_before key) :=
    List.sorted_insertionSort (column_before key) _
  have h2 : (columns_in_order key n).Nodup :=
    (columns_perm key n).nodup_iff.mpr (List.nodup_range _)
  exact h1.and h2

theorem mem_column_indices (n L c i : Nat) :
    i ∈ column_indices n L c ↔ i < n ∧ ∃ r, r < n ∧ c + r * L = i := by
  unfold column_indices
  simp only [List.mem_filter, List.mem_map, List.mem_range, decide_eq_true_eq]
  tauto

theorem column_indices_mod (n L c i : Nat) (hc : c < L) (h : i ∈ column_indices n L c) :
    i % L = c := by
  obtain ⟨_, r, _, rfl⟩ := (mem_column_indices n L c i).mp h
  rw [Nat.add_mul_mod_self_right, Nat.mod_eq_of_lt hc]

theorem column_indices_sorted (key : List Int) (n L c : Nat) (hL : 0 < L) :
    (column_indices n L c).Pairwise (fun i j => index_le key L i j = true ∧ i ≠ j) := by
  unfold column_indices
  apply List.Pairwise.filter
  rw [List.pairwise_map]
  refine (List.pairwise_lt_range n).imp ?_
  intro r r' hr
  have hm : r * L < r' * L := Nat.mul_lt_mul_of_pos_right hr hL
  rw [index_le_iff, Nat.add_mul_mod_self_right, Nat.add_mul_mod_self_right]
  omega

theorem mem_columns (key : List Int) (n c : Nat) :
    c ∈ columns_in_order key n ↔ c < strlen key ∧ c < n := by
  rw [(columns_perm key n).mem_iff, List.mem_range]
  omega

/-- The positions read column by column are in the order of the sort, and no
position is read twice. -/
theorem column_order_sorted (key : List Int) (n : Nat) (hL : 0 < strlen key) :
    ((columns_in_order key n).flatMap (column_indices n (strlen key))).Pairwise
      (fun i j => index_le key (strlen key) i j = true ∧ i ≠ j) := by
  rw [List.pairwise_flatMap]
  refine ⟨fun c _ => column_indices_sorted key n (strlen key) c hL, ?_⟩
  refine (columns_sorted key n).imp_of_mem ?_
  intro c c' hc hc' hcc i hi j hj
  have hi' := column_indices_mod n (strlen key) c i ((mem_columns key n c).mp hc).1 hi
  have hj' := column_indices_mod n (strlen key) c' j ((mem_columns key n c').mp hc').1 hj
  rw [index_le_iff, hi', hj']
  unfold column_before at hcc
  refine ⟨?_, ?_⟩
  · omega
  · intro hij
    rw [hij, hj'] at hi'
    omega

theorem column_order_perm (key : List Int) (n : Nat) (hL : 0 < strlen key) :
    ((columns_in_order key n).flatMap (column_indices n (strlen key))).Perm (List.range n) := by
  have hnd : ((columns_in_order key n).flatMap (column_indices n (strlen key))).Nodup :=
    (column_order_sorted key n hL).imp (fun h => h.2)
  rw [List.perm_ext_iff_of_nodup hnd (List.nodup_range n)]
  intro i
  rw [List.mem_flatMap, List.mem_range]
  constructor
  · rintro ⟨c, _, hi⟩
    exact ((mem_column_indices n _ c i).mp hi).1
  · intro hi
    have hmod : i % strlen key < strlen key := Nat.mod_lt _ hL
    have hle : i % strlen key ≤ i := Nat.mod_le _ _
    refine ⟨i % strlen key, (mem_columns key n _).mpr ⟨hmod, by omega⟩, ?_⟩
    rw [mem_column_indices]
    refine ⟨hi, i / strlen key, ?_, Nat.mod_add_div' i (strlen key)⟩
    have : i / strlen key ≤ i := Nat.div_le_self _ _
    omega

/-- The Phase A indices are the positions read column by column. -/
theorem phase_a_indices_columns (key : List Int) (n : Nat) (hL : 0 < strlen key) :
    phase_a_indices n key = (columns_in_order key n).flatMap (column_indices n (strlen key)) := by
  rw [phase_a_indices_eq key hL n]
  apply List.Perm.eq_of_sorted
  · intro a b _ _ h1 h2
    exact index_le_antisymm key (strlen key) a b h1 h2
  · exact List.sorted_mergeSort (index_le_trans key (strlen key)) (index_le_total key (strlen key)) _
  · exact (column_order_sorted key n hL).imp (fun h => h.1)
  · exact (List.mergeSort_perm _ _).trans (column_order_perm key n hL).symm

theorem transpose_eq_columns (S : List Nat) (key : List Int) (h : key_nonempty key) :
    transpose S key = transpose_columns S key := by
  rw [transpose_eq_map_indices, phase_a_indices_columns key S.length (strlen_pos key h)]
  unfold transpose_columns column
  rw [List.map_flatMap]

set_option maxRecDepth 100000 in
theorem lead1_check : ∀ b : Fin 256, b.val < 0x80 →
    row 0 (class_of b.val) = 0 ∧ (0xff >>> class_of b.val) &&& b.val = b.val := by
  decide!

set_option maxRecDepth 100000 in
theorem lead2_check : ∀ b : Fin 256, 0xC2 ≤ b.val → b.val ≤ 0xDF →
    row 0 (class_of b.val) = 24 ∧ (0xff >>> class_of b.val) &&& b.val = b.val - 0xC0 := by
  decide!

set_option maxRecDepth 100000 in
theorem lead3_check : ∀ b : Fin 256, 0xE0 ≤ b.val → b.val ≤ 0xEF →
    row 0 (class_of b.val) = (if b.val = 0xE0 then 48 else if b.val = 0xED then 60 else 36)
      ∧ (0xff >>> class_of b.val) &&& b.val = b.val - 0xE0 := by
  decide!

set_option maxRecDepth 100000 in
theorem lead4_check : ∀ b : Fin 256, 0xF0 ≤ b.val → b.val ≤ 0xF4 →
    row 0 (class_of b.val) = (if b.val = 0xF0 then 72 else if b.val = 0xF4 then 96 else 84)
      ∧ (0xff >>> class_of b.val) &&& b.val = b.val - 0xF0 := by
  decide!

set_option maxRecDepth 100000 in
theorem lead_bad_check : ∀ b : Fin 256, (0x80 ≤ b.val ∧ b.val < 0xC2) ∨ 0xF5 ≤ b.val →
    row 0 (class_of b.val) = 12 := by
  decide!

/-! ## Steps of the loop of `read_all` -/

/-- A byte that the current state rejects ends the loop. -/
theorem read_loop_reject (b : Nat) (rest : List Nat) (s cp : Nat) (u : List Nat) (hb : b < 256)
    (h : next_state s b = 12) :
    read_loop (b :: rest) s cp u = Except.error Fatal.bad_input_utf8_sequence := by
  rw [read_loop_cons, Nat.mod_eq_of_lt hb, h]
  rfl

/-- An ASCII byte read in the state `UTF8_ACCEPT` is stored as it is. -/
theorem read_loop_ascii (b : Nat) (rest : List Nat) (cp : Nat) (u : List Nat) (hb : b < 0x80) :
    read_loop (b :: rest) 0 cp u = read_loop rest 0 0 (u ++ [b]) := by
  have hb' : b < 256 := by omega
  have h := lead1_check ⟨b, hb'⟩ hb
  simp only [] at h
  rw [read_loop_cons, Nat.mod_eq_of_lt hb', next_state_start b hb', h.1, if_pos rfl,
    utf8_decode_start, utf8d_class b hb', h.2]

/-- A lead byte read in the state `UTF8_ACCEPT`: the loop goes on in the
pending state of the byte with its payload bits. -/
theorem read_loop_lead (b : Nat) (rest : List Nat) (cp : Nat) (u : List Nat) (hb : b < 256)
    (s v : Nat) (hs : is_pending s)
    (h : row 0 (class_of b) = s ∧ (0xff >>> class_of b) &&& b = v) :
    read_loop (b :: rest) 0 cp u = read_loop rest s v u := by
  have h0 : s ≠ 0 := is_pending_ne_zero s hs
  have h12 : s ≠ 12 := by unfold is_pending at hs; omega
  rw [read_loop_cons, Nat.mod_eq_of_lt hb, next_state_start b hb, h.1, if_neg h0, if_neg h12,
    utf8_decode_start, utf8d_class b hb, h.2]

/-- A continuation byte of the range of a pending state adds six bits; the
code point is stored when the sequence is complete. -/
theorem read_loop_cont (b : Nat) (rest : List Nat) (s cp : Nat) (u : List Nat)
    (hs : is_pending s) (hcp : cp < 2 ^ 26) (hlo : cont_lo s ≤ b) (hhi : b ≤ cont_hi s) :
    read_loop (b :: rest) s cp u =
      if cont_target s = 0 then read_loop rest 0 0 (u ++ [cp * 64 + b % 64])
      else read_loop rest (cont_target s) (cp * 64 + b % 64) u := by
  have hb : b < 256 := by
    have : cont_hi s ≤ 0xBF := by unfold cont_hi; split_ifs <;> omega
    omega
  have hns : next_state s b = cont_target s := by
    rw [next_state_pending s b hs hb, if_pos ⟨hlo, hhi⟩]
  have h12 : cont_target s ≠ 12 := by unfold cont_target; split_ifs <;> omega
  have hv : (utf8_decode s cp b).2 = cp * 64 + b % 64 := by
    rw [utf8_decode_cont s cp b (is_pending_ne_zero s hs), cont_bits cp b hcp]
  rw [read_loop_cons, Nat.mod_eq_of_lt hb, hns, hv]
  by_cases h0 : cont_target s = 0
  · rw [if_pos h0, if_pos h0]
  · rw [if_neg h0, if_neg h0, if_neg h12]

theorem read_loop_cont_24 (b : Nat) (rest : List Nat) (cp : Nat) (u : List Nat)
    (hcp : cp < 2 ^ 26) (hlo : 0x80 ≤ b) (hhi : b ≤ 0xBF) :
    read_loop (b :: rest) 24 cp u = read_loop rest 0 0 (u ++ [cp * 64 + b % 64]) := by
  rw [read_loop_cont b rest 24 cp u (by decide) hcp (by simpa [cont_lo] using hlo)
    (by simpa [cont_hi] using hhi)]
  rfl

theorem read_loop_cont_next (b : Nat) (rest : List Nat) (s t cp : Nat) (u : List Nat)
    (hs : is_pending s) (ht : cont_target s = t) (ht0 : t ≠ 0) (hcp : cp < 2 ^ 26)
    (hlo : cont_lo s ≤ b) (hhi : b ≤ cont_hi s) :
    read_loop (b :: rest) s cp u = read_loop rest t (cp * 64 + b % 64) u := by
  rw [read_loop_cont b rest s cp u hs hcp hlo hhi, ht, if_neg ht0]

/-! ## Decoding a standard encoding -/

theorem read_lead_2 (c : Nat) (h1 : 0x80 ≤ c) (h2 : c < 0x800) (rest : List Nat) (cp : Nat)
    (u : List Nat) :
    read_loop ((0xC0 + c / 64) :: rest) 0 cp u = read_loop rest 24 (c / 64) u := by
  have hb : 0xC0 + c / 64 < 256 := by omega
  have h := lead2_check ⟨0xC0 + c / 64, hb⟩ (by simp only []; omega) (by simp only []; omega)
  simp only [] at h
  exact read_loop_lead _ rest cp u hb 24 (c / 64) (by decide) ⟨h.1, by rw [h.2]; omega⟩

theorem state_3_pending (c : Nat) : is_pending (state_3 c) := by
  unfold state_3 is_pending
  split_ifs <;> omega

theorem state_4_pending (c : Nat) : is_pending (state_4 c) := by
  unfold state_4 is_pending
  split_ifs <;> omega

theorem read_lead_3 (c : Nat) (h2 : c < 0x10000) (rest : List Nat) (cp : Nat)
    (u : List Nat) :
    read_loop ((0xE0 + c / 4096) :: rest) 0 cp u = read_loop rest (state_3 c) (c / 4096) u := by
  have hb : 0xE0 + c / 4096 < 256 := by omega
  have h := lead3_check ⟨0xE0 + c / 4096, hb⟩ (by simp only []; omega) (by simp only []; omega)
  simp only [] at h
  refine read_loop_lead _ rest cp u hb (state_3 c) (c / 4096) (state_3_pending c)
    ⟨?_, by rw [h.2]; omega⟩
  rw [h.1]
  unfold state_3
  by_cases c0 : c / 4096 = 0
  · rw [if_pos (by omega), if_pos c0]
  · rw [if_neg (by omega), if_neg c0]
    by_cases c13 : c / 4096 = 13
    · rw [if_pos (by omega), if_pos c13]
    · rw [if_neg (by omega), if_neg c13]

theorem read_lead_4 (c : Nat) (h2 : c < 0x110000) (rest : List Nat) (cp : Nat)
    (u : List Nat) :
    read_loop ((0xF0 + c / 262144) :: rest) 0 cp u
      = read_loop rest (state_4 c) (c / 262144) u := by
  have hb : 0xF0 + c / 262144 < 256 := by omega
  have h := lead4_check ⟨0xF0 + c / 262144, hb⟩ (by simp only []; omega) (by simp only []; omega)
  simp only [] at h
  refine read_loop_lead _ rest cp u hb (state_4 c) (c / 262144) (state_4_pending c)
    ⟨?_, by rw [h.2]; omega⟩
  rw [h.1]
  unfold state_4
  by_cases c0 : c / 262144 = 0
  · rw [if_pos (by omega), if_pos c0]
  · rw [if_neg (by omega), if_neg c0]
    by_cases c4 : c / 262144 = 4
    · rw [if_pos (by omega), if_pos c4]
    · rw [if_neg (by omega), if_neg c4]

/-- The last byte of an encoding completes the code point. -/
theorem read_last (c : Nat) (h : c < 0x110000) (rest : List Nat) (u : List Nat) :
    read_loop ((0x80 + c % 64) :: rest) 24 (c / 64) u = read_loop rest 0 0 (u ++ [c]) := by
  rw [read_loop_cont_24 _ rest (c / 64) u (by omega) (by omega) (by omega)]
  congr 3
  omega

/-- The byte before the last one of an encoding of three or four bytes. -/
theorem read_middle (c : Nat) (h : c < 0x110000) (rest : List Nat) (u : List Nat) :
    read_loop ((0x80 + c / 64 % 64) :: rest) 36 (c / 4096) u = read_loop rest 24 (c / 64) u := by
  have hlo : cont_lo 36 = 0x80 := by decide
  have hhi : cont_hi 36 = 0xBF := by decide
  rw [read_loop_cont_next _ rest 36 24 (c / 4096) u (by decide) (by decide) (by decide) (by omega)
    (by omega) (by omega)]
  congr 1
  omega

/-- The second byte of a three-byte encoding of a scalar value. -/
theorem read_second_3 (c : Nat) (h1 : 0x800 ≤ c) (h2 : c < 0x10000)
    (hs : ¬ (0xD800 ≤ c ∧ c ≤ 0xDFFF)) (rest : List Nat) (u : List Nat) :
    read_loop ((0x80 + c / 64 % 64) :: rest) (state_3 c) (c / 4096) u
      = read_loop rest 24 (c / 64) u := by
  have e : c / 4096 * 64 + (0x80 + c / 64 % 64) % 64 = c / 64 := by omega
  have key := read_loop_cont_next (0x80 + c / 64 % 64) rest (state_3 c) 24 (c / 4096) u
    (state_3_pending c)
  rw [e] at key
  apply key
  · unfold state_3 cont_target
    split_ifs <;> simp_all
  · decide
  · omega
  · unfold state_3 cont_lo
    split_ifs <;> omega
  · unfold state_3 cont_hi
    split_ifs <;> omega

/-- The second byte of a four-byte encoding of a scalar value. -/
theorem read_second_4 (c : Nat) (h1 : 0x10000 ≤ c) (h2 : c < 0x110000)
    (rest : List Nat) (u : List Nat) :
    read_loop ((0x80 + c / 4096 % 64) :: rest) (state_4 c) (c / 262144) u
      = read_loop rest 36 (c / 4096) u := by
  have e : c / 262144 * 64 + (0x80 + c / 4096 % 64) % 64 = c / 4096 := by omega
  have key := read_loop_cont_next (0x80 + c / 4096 % 64) rest (state_4 c) 36 (c / 262144) u
    (state_4_pending c)
  rw [e] at key
  apply key
  · unfold state_4 cont_target
    split_ifs <;> simp_all
  · decide
  · omega
  · unfold state_4 cont_lo
    split_ifs <;> omega
  · unfold state_4 cont_hi
    split_ifs <;> omega

/-- The loop of `read_all` decodes the standard encoding of a scalar value to
that value. -/
theorem read_loop_standard (c : Nat) (hv : valid_scalar c) (rest : List Nat) (cp : Nat)
    (u : List Nat) :
    read_loop (utf8_standard c ++ rest) 0 cp u = read_loop rest 0 0 (u ++ [c]) := by
  unfold valid_scalar at hv
  unfold utf8_standard
  by_cases c1 : c < 0x80
  · rw [if_pos c1]
    exact read_loop_ascii c rest cp u c1
  · rw [if_neg c1]
    by_cases c2 : c < 0x800
    · rw [if_pos c2]
      simp only [List.cons_append, List.nil_append]
      rw [read_lead_2 c (by omega) c2, read_last c (by omega)]
    · rw [if_neg c2]
      by_cases c3 : c < 0x10000
      · rw [if_pos c3]
        simp only [List.cons_append, List.nil_append]
        rw [read_lead_3 c c3, read_second_3 c (by omega) c3 hv.2, read_last c (by omega)]
      · rw [if_neg c3]
        simp only [List.cons_append, List.nil_append]
        rw [read_lead_4 c (by omega), read_second_4 c (by omega) (by omega),
          read_middle c (by omega), read_last c (by omega)]

/-- A stream that ends inside the standard encoding of a scalar value leaves
the loop of `read_all` in a pending state. -/
theorem read_loop_standard_cut (c : Nat) (hv : valid_scalar c) (k : Nat) (hk0 : 0 < k)
    (hk : k < (utf8_standard c).length) (cp : Nat) (u : List Nat) :
    ∃ s cp', is_pending s ∧ read_loop ((utf8_standard c).take k) 0 cp u = Except.ok (s, cp', u) := by
  unfold valid_scalar at hv
  unfold utf8_standard at hk ⊢
  by_cases c1 : c < 0x80
  · rw [if_pos c1] at hk
    simp at hk
    omega
  · rw [if_neg c1] at hk ⊢
    by_cases c2 : c < 0x800
    · rw [if_pos c2] at hk ⊢
      simp only [List.length_cons, List.length_nil] at hk
      have hk1 : k = 1 := by omega
      subst hk1
      simp only [List.take_succ_cons, List.take_zero]
      rw [read_lead_2 c (by omega) c2]
      exact ⟨24, _, by decide, rfl⟩
    · rw [if_neg c2] at hk ⊢
      by_cases c3 : c < 0x10000
      · rw [if_pos c3] at hk ⊢
        simp only [List.length_cons, List.length_nil] at hk
        have hk1 : k = 1 ∨ k = 2 := by omega
        rcases hk1 with hk1 | hk1 <;> subst hk1
        · simp only [List.take_succ_cons, List.take_zero]
          rw [read_lead_3 c c3]
          exact ⟨state_3 c, _, state_3_pending c, rfl⟩
        · simp only [List.take_succ_cons, List.take_zero]
          rw [read_lead_3 c c3, read_second_3 c (by omega) c3 hv.2]
          exact ⟨24, _, by decide, rfl⟩
      · rw [if_neg c3] at hk ⊢
        simp only [List.length_cons, List.length_nil] at hk
        have hk1 : k = 1 ∨ k = 2 ∨ k = 3 := by omega
        rcases hk1 with hk1 | hk1 | hk1 <;> subst hk1
        · simp only [List.take_succ_cons, List.take_zero]
          rw [read_lead_4 c (by omega)]
          exact ⟨state_4 c, _, state_4_pending c, rfl⟩
        · simp only [List.take_succ_cons, List.take_zero]
          rw [read_lead_4 c (by omega), read_second_4 c (by omega) (by omega)]
          exact ⟨36, _, by decide, rfl⟩
        · simp only [List.take_succ_cons, List.take_zero]
          rw [read_lead_4 c (by omega), read_second_4 c (by omega) (by omega),
            read_middle c (by omega)]
          exact ⟨24, _, by decide, rfl⟩

/-! ## Streams that the decoder refuses -/

theorem lead_in_pending (s b : Nat) (hs : is_pending s) (h : 0xC0 ≤ b) (hb : b < 256) :
    next_state s b = 12 := by
  rw [next_state_pending s b hs hb, if_neg]
  have : cont_hi s ≤ 0xBF := by unfold cont_hi; split_ifs <;> omega
  omega

theorem read_loop_state (P : List Nat) (s cp : Nat) (u : List Nat)
    (h : read_loop P UTF8_ACCEPT 0 [] = Except.ok (s, cp, u)) : s = 0 ∨ is_pending s :=
  pending_ok_state s cp (read_loop_inv P 0 0 [] (Or.inl rfl) (by simp) s cp u h).1

/-- A part of a stream that is refused in every state makes `read_all` fail
with the message of a rejected byte. -/
theorem read_all_refused (P l R : List Nat)
    (h : ∀ (s cp : Nat) (u : List Nat), s = 0 ∨ is_pending s →
      read_loop (l ++ R) s cp u = Except.error Fatal.bad_input_utf8_sequence) :
    read_all (P ++ l ++ R) = Except.error Fatal.bad_input_utf8_sequence := by
  unfold read_all
  rw [List.append_assoc, read_loop_append]
  cases hP : read_loop P UTF8_ACCEPT 0 [] with
  | error e =>
    simp only []
    rw [read_loop_error P _ _ _ e hP]
  | ok r =>
    obtain ⟨s, cp, u⟩ := r
    simp only []
    rw [h s cp u (read_loop_state P s cp u hP)]

/-- A lead byte that is refused at once, in every state. -/
theorem refused_first (b : Nat) (rest : List Nat) (hb : b < 256) (h : 0xC0 ≤ b)
    (h0 : row 0 (class_of b) = 12) (s cp : Nat) (u : List Nat) (hs : s = 0 ∨ is_pending s) :
    read_loop (b :: rest) s cp u = Except.error Fatal.bad_input_utf8_sequence := by
  apply read_loop_reject b rest s cp u hb
  rcases hs with hs | hs
  · rw [hs, next_state_start b hb, h0]
  · exact lead_in_pending s b hs h hb

/-- A lead byte followed by a byte outside the range of its pending state is
refused, in every state. -/
theorem refused_second (b0 b1 : Nat) (rest : List Nat) (hb0 : b0 < 256) (h : 0xC0 ≤ b0)
    (hb1 : b1 < 256) (s1 : Nat) (hs1 : is_pending s1) (h0 : row 0 (class_of b0) = s1)
    (hout : ¬ (cont_lo s1 ≤ b1 ∧ b1 ≤ cont_hi s1)) (s cp : Nat) (u : List Nat)
    (hs : s = 0 ∨ is_pending s) :
    read_loop (b0 :: b1 :: rest) s cp u = Except.error Fatal.bad_input_utf8_sequence := by
  rcases hs with hs | hs
  · subst hs
    rw [read_loop_lead b0 (b1 :: rest) cp u hb0 s1 _ hs1 ⟨h0, rfl⟩]
    apply read_loop_reject b1 rest s1 _ u hb1
    rw [next_state_pending s1 b1 hs1 hb1, if_neg hout]
  · exact read_loop_reject b0 _ s cp u hb0 (lead_in_pending s b0 hs h hb0)

theorem read_all_overlong (P R : List Nat) (c : Nat) (hc : c < 0x80) (l : List Nat)
    (hl : l ∈ overlong_ascii c) :
    read_all (P ++ l ++ R) = Except.error Fatal.bad_input_utf8_sequence := by
  apply read_all_refused
  intro s cp u hs
  unfold overlong_ascii at hl
  simp only [List.mem_cons, List.mem_singleton, List.not_mem_nil, or_false] at hl
  rcases hl with hl | hl | hl <;> subst hl <;> simp only [List.cons_append, List.nil_append]
  · have hb : 0xC0 + c / 64 < 256 := by omega
    exact refused_first _ _ hb (by omega)
      (lead_bad_check ⟨0xC0 + c / 64, hb⟩ (by simp only []; omega)) s cp u hs
  · exact refused_second 0xE0 _ _ (by decide) (by decide) (by omega) 48 (by decide) (by decide)
      (by have : cont_lo 48 = 0xA0 := by decide
          omega) s cp u hs
  · exact refused_second 0xF0 0x80 _ (by decide) (by decide) (by decide) 72 (by decide)
      (by decide) (by decide) s cp u hs

theorem read_all_surrogate (P R : List Nat) (c : Nat) (h1 : 0xD800 ≤ c) (h2 : c ≤ 0xDFFF) :
    read_all (P ++ three_byte_form c ++ R) = Except.error Fatal.bad_input_utf8_sequence := by
  apply read_all_refused
  intro s cp u hs
  unfold three_byte_form
  simp only [List.cons_append, List.nil_append]
  have e : 0xE0 + c / 4096 = 0xED := by omega
  rw [e]
  exact refused_second 0xED _ _ (by decide) (by decide) (by omega) 60 (by decide) (by decide)
    (by have : cont_hi 60 = 0x9F := by decide
        omega) s cp u hs

theorem read_all_pending (B : List Nat) (s cp : Nat) (u : List Nat)
    (h : read_loop B UTF8_ACCEPT 0 [] = Except.ok (s, cp, u)) (hs : s ≠ UTF8_ACCEPT) :
    read_all B = Except.error Fatal.bad_input_utf8_last_sequence := by
  unfold read_all
  rw [h]
  simp only []
  rw [if_pos hs]

theorem read_all_cut (P u : List Nat) (c k : Nat) (hP : read_all P = Except.ok u)
    (hv : valid_scalar c) (hk0 : 0 < k) (hk : k < (utf8_code c).2.length) :
    read_all (P ++ (utf8_code c).2.take k) = Except.error Fatal.bad_input_utf8_last_sequence := by
  rw [utf8_code_valid c hv] at hk ⊢
  simp only [] at hk ⊢
  obtain ⟨cp, hP'⟩ := read_all_ok P u hP
  obtain ⟨s, cp', hs, hcut⟩ := read_loop_standard_cut c hv k hk0 hk cp u
  apply read_all_pending _ s cp' u
  · rw [read_loop_append, hP']
    exact hcut
  · exact is_pending_ne_zero s hs

/-! ## The codec on streams without a NUL -/

/-- The loop of `read_all` decodes the encoding of a sequence of scalar values
to that sequence. -/
theorem read_loop_stream (C : List Nat) : ∀ (cp : Nat) (u : List Nat),
    (∀ c ∈ C, valid_scalar c) →
    ∃ cp', read_loop (utf8_stream C) 0 cp u = Except.ok (0, cp', u ++ C) := by
  induction C with
  | nil =>
    intro cp u _
    exact ⟨cp, by simp [utf8_stream, read_loop_nil]⟩
  | cons c rest ih =>
    intro cp u h
    have hc := h c (List.mem_cons_self _ _)
    obtain ⟨cp', h'⟩ := ih 0 (u ++ [c]) (fun x hx => h x (List.mem_cons_of_mem _ hx))
    refine ⟨cp', ?_⟩
    unfold utf8_stream at h' ⊢
    rw [List.flatMap_cons, read_loop_standard c hc, h']
    simp

theorem read_all_stream (C : List Nat) (h : ∀ c ∈ C, valid_scalar c) :
    read_all (utf8_stream C) = Except.ok C := by
  obtain ⟨cp, h'⟩ := read_loop_stream C 0 [] h
  unfold read_all
  rw [show UTF8_ACCEPT = 0 from rfl, h']
  simp

theorem utf8_standard_nonzero (c : Nat) (h0 : c ≠ 0) : ∀ b ∈ utf8_standard c, b ≠ 0 := by
  unfold utf8_standard
  split_ifs <;> simp only [List.mem_cons, List.mem_singleton, List.not_mem_nil, or_false] <;>
    omega

theorem fputs_standard (c : Nat) (h0 : c ≠ 0) :
    fputs (utf8_standard c ++ [0]) = utf8_standard c := by
  unfold fputs
  rw [List.takeWhile_append_of_pos]
  · simp
  · intro b hb
    simpa using utf8_standard_nonzero c h0 b hb

/-- On scalar values other than 0 `write_all` writes the standard encoding. -/
theorem write_all_stream (C : List Nat) (h : ∀ c ∈ C, valid_scalar c) (h0 : ∀ c ∈ C, c ≠ 0) :
    write_all C = (utf8_stream C, none) := by
  rw [write_all, write_loop_valid C [] h]
  simp only [List.nil_append, utf8_stream]
  congr 1
  apply List.flatMap_congr
  intro c hc
  exact fputs_standard c (h0 c hc)

/-- The codec round trip on every stream that encodes scalar values other
than U+0000. -/
theorem codec_round_trip_without_nul (C : List Nat) (h : ∀ c ∈ C, valid_scalar c)
    (h0 : ∀ c ∈ C, c ≠ 0) :
    read_all (utf8_stream C) = Except.ok C ∧ write_all C = (utf8_stream C, none) :=
  ⟨read_all_stream C h, write_all_stream C h h0⟩

/-- A run of `main` that gets past the key checks and the decoder, on a
non-empty text whose permuted form `write_all` writes without failure. -/
theorem main_success (crypt simple outfile : Bool) (key1 key2 : List Int)
    (input udata out : List Nat) (hk1 : key_nonempty key1) (hk2 : key_nonempty key2)
    (hr : read_all input = Except.ok udata) (hlen : udata.length > 0)
    (hw : write_all (if crypt then encrypt_text simple key1 key2 udata
      else decrypt_text simple key1 key2 udata) = (out, none)) :
    main crypt simple outfile key1 key2 input = { out := out, removed := false, status := none } := by
  have k1 : key_at key1 0 ≠ 0 := hk1
  have k2 : key_at key2 0 ≠ 0 := hk2
  unfold main
  rw [if_neg k1, hr]
  simp only []
  rw [if_pos hlen]
  unfold encrypt_text decrypt_text at hw
  cases crypt <;> cases simple <;>
    simp only [Bool.not_false, Bool.not_true, Bool.true_and, Bool.false_and, decide_eq_true_eq,
      if_neg k2, Bool.false_eq_true, if_false, if_true] at hw ⊢ <;>
    rw [hw]

theorem decrypt_encrypt_text (simple : Bool) (key1 key2 : List Int) (text : List Nat) :
    decrypt_text simple key1 key2 (encrypt_text simple key1 key2 text) = text := by
  unfold decrypt_text encrypt_text
  cases simple
  · simp only [Bool.false_eq_true, if_false]
    rw [reverse_transpose, reverse_transpose]
  · simp only [if_true]
    rw [reverse_transpose]

theorem encrypt_text_perm (simple : Bool) (key1 key2 : List Int) (text : List Nat) :
    (encrypt_text simple key1 key2 text).Perm text := by
  unfold encrypt_text
  cases simple
  · exact (transpose_perm _ key2).trans (transpose_perm _ key1)
  · exact transpose_perm _ key1

/-- The whole program on a stream that encodes scalar values other than
U+0000: decrypting what encrypting wrote gives the stream back, in single-key
and in double-key mode. -/
theorem pipeline_round_trip_without_nul (C : List Nat) (h : ∀ c ∈ C, valid_scalar c)
    (h0 : ∀ c ∈ C, c ≠ 0) (simple outfile : Bool) (key1 key2 : List Int)
    (hk1 : key_nonempty key1) (hk2 : key_nonempty key2) :
    (main true simple outfile key1 key2 (utf8_stream C)).status = none
      ∧ main false simple outfile key1 key2 (main true simple outfile key1 key2 (utf8_stream C)).out
          = { out := utf8_stream C, removed := false, status := none } := by
  have k1 : key_at key1 0 ≠ 0 := hk1
  have k2 : key_at key2 0 ≠ 0 := hk2
  cases C with
  | nil =>
    have hr : read_all [] = Except.ok [] := by decide
    simp [main, k1, k2, utf8_stream, hr]
  | cons c rest =>
    have hX := encrypt_text_perm simple key1 key2 (c :: rest)
    have hXv : ∀ x ∈ encrypt_text simple key1 key2 (c :: rest), valid_scalar x :=
      fun x hx => h x (hX.mem_iff.mp hx)
    have hX0 : ∀ x ∈ encrypt_text simple key1 key2 (c :: rest), x ≠ 0 :=
      fun x hx => h0 x (hX.mem_iff.mp hx)
    have hXlen : (encrypt_text simple key1 key2 (c :: rest)).length > 0 := by
      rw [hX.length_eq]
      simp
    have henc := main_success true simple outfile key1 key2 (utf8_stream (c :: rest)) (c :: rest)
      (utf8_stream (encrypt_text simple key1 key2 (c :: rest))) hk1 hk2 (read_all_stream _ h)
      (by simp) (by rw [if_pos rfl]; exact write_all_stream _ hXv hX0)
    rw [henc]
    refine ⟨rfl, ?_⟩
    exact main_success false simple outfile key1 key2 _ _ _ hk1 hk2 (read_all_stream _ hXv) hXlen
      (by rw [if_neg (by simp), decrypt_encrypt_text]; exact write_all_stream _ h h0)

/-! ## Short texts, long keys and the rule of the tagging loop -/

theorem transpose_short (S : List Nat) (K : List Int) (h : S.length ≤ 1) : transpose S K = S := by
  have hp := transpose_perm S K
  match S, h with
  | [], _ => exact List.perm_nil.mp hp
  | [a], _ => exact List.perm_singleton.mp hp

/-- The tagging loop reads the key only at the columns it visits. -/
theorem fill_items_take (K : List Int) (n : Nat) (hn : n < strlen K) (cs : List Nat) :
    ∀ k : Nat, k + cs.length ≤ n → fill_items K k cs = fill_items (K.take n) k cs := by
  induction cs with
  | nil => intro k _; rfl
  | cons c cs ih =>
    intro k hk
    simp only [List.length_cons] at hk
    have hkey : key_at (K.take n) k = key_at K k := by
      unfold key_at
      rw [List.getD_eq_getElem?_getD, List.getD_eq_getElem?_getD, List.getElem?_take_of_lt (by omega)]
    rw [fill_items, fill_items, hkey]
    cases cs with
    | nil => rfl
    | cons d ds =>
      simp only [List.length_cons] at hk
      have h1 : next_k K k = k + 1 := by
        unfold next_k
        rw [if_neg (key_at_ne_zero K (k + 1) (by omega))]
      have hkey1 : key_at (K.take n) (k + 1) = key_at K (k + 1) := by
        unfold key_at
        rw [List.getD_eq_getElem?_getD, List.getD_eq_getElem?_getD,
          List.getElem?_take_of_lt (by omega)]
      have h2 : next_k (K.take n) k = k + 1 := by
        unfold next_k
        rw [hkey1, if_neg (key_at_ne_zero K (k + 1) (by omega))]
      rw [h1, h2, ih (k + 1) (by simp only [List.length_cons]; omega)]

theorem transpose_take (S : List Nat) (K : List Int) (h : S.length < strlen K) :
    transpose S K = transpose S (K.take S.length) := by
  unfold transpose
  rw [fill_items_take K S.length h S 0 (by omega)]

/-- The tagging loop on any codes: position `i` gets the key character and
the column of `i mod L`. -/
theorem fill_items_eq (K : List Int) (h : 0 < strlen K) (cs : List Nat) :
    fill_items K 0 cs
      = (List.range cs.length).map (fun i =>
          ({ code := cs.getD i 0, key := key_at K (i % strlen K),
             subkey := ((i % strlen K : Nat) : Int) } : tc_item)) := by
  have h0 := fill_items_range K h cs.length 0
  rw [Nat.zero_mod, ← List.range_eq_range'] at h0
  conv_lhs => rw [← map_getD_range cs, fill_items_map, h0]
  rw [List.map_map]
  rfl

theorem strlen_eq_length (K : List Int) (h0 : ∀ c ∈ K, c ≠ 0) : strlen K = K.length := by
  unfold strlen
  rw [List.takeWhile_eq_self_iff.mpr]
  intro c hc
  simpa using h0 c hc

theorem key_nonempty_of_ne_nil (K : List Int) (hne : K ≠ []) (h0 : ∀ c ∈ K, c ≠ 0) :
    key_nonempty K := by
  cases K with
  | nil => exact absurd rfl hne
  | cons a l =>
    unfold key_nonempty key_at
    simpa using h0 a (List.mem_cons_self _ _)

theorem fill_items_getElem (K : List Int) (h : 0 < strlen K) (cs : List Nat) (i : Nat)
    (hi : i < cs.length) :
    (fill_items K 0 cs)[i]? =
      some ({ code := cs.getD i 0, key := key_at K (i % strlen K),
              subkey := ((i % strlen K : Nat) : Int) } : tc_item) := by
  rw [fill_items_eq K h cs, List.getElem?_map, List.getElem?_range hi]
  rfl

/-- The slot `j` of the output of `transpose` holds the element of `msg` at the
index that Phase A of `reverse` leaves in slot `j`. -/
theorem transpose_getElem (S : List Nat) (K : List Int) (j : Nat) (hj : j < S.length) :
    ∃ i, (phase_a_indices S.length K)[j]? = some i ∧ i < S.length
      ∧ S[i]? = some (S.getD i 0) ∧ (transpose S K)[j]? = some (S.getD i 0) := by
  have hp := phase_a_indices_perm S.length K
  have hlen : (phase_a_indices S.length K).length = S.length := by
    rw [hp.length_eq, List.length_range]
  have hj' : j < (phase_a_indices S.length K).length := by omega
  refine ⟨(phase_a_indices S.length K)[j], List.getElem?_eq_getElem hj', ?_, ?_, ?_⟩
  · exact List.mem_range.mp (hp.mem_iff.mp (List.getElem_mem hj'))
  · have hi : (phase_a_indices S.length K)[j] < S.length :=
      List.mem_range.mp (hp.mem_iff.mp (List.getElem_mem hj'))
    rw [List.getD_eq_getElem?_getD, List.getElem?_eq_getElem hi]
    rfl
  · rw [transpose_eq_map_indices, List.getElem?_map, List.getElem?_eq_getElem hj']
    rfl

/-- Sorting items whose keys are the indices `0 .. n - 1`: slot `k` of the
result holds the code of the item of key `k`. -/
theorem sort_by_key (n : Nat) (g : Nat → Nat) (Y : List tc_item)
    (hk : (Y.map (fun it => it.key)).Perm ((List.range n).map (fun i : Nat => (i : Int))))
    (hc : ∀ it ∈ Y, it.code = g it.key.toNat) :
    (mergesort Y compare).map (fun it => it.code) = (List.range n).map g := by
  have hperm := mergesort_perm Y
  have hkeys : (mergesort Y compare).map (fun it => it.key)
      = (List.range n).map (fun i : Nat => (i : Int)) := by
    apply @List.eq_of_perm_of_sorted Int (fun a b => a ≤ b) _ _ _ ((hperm.map _).trans hk)
    · rw [List.Sorted, List.pairwise_map]
      refine (mergesort_sorted Y).imp ?_
      intro a b h
      rw [item_le_iff] at h
      show a.key ≤ b.key
      omega
    · exact sorted_range_int _
  have hcode : (mergesort Y compare).map (fun it => it.code)
      = ((mergesort Y compare).map (fun it => it.key)).map (fun k => g k.toNat) := by
    rw [List.map_map]
    apply List.map_congr_left
    intro it hit
    exact hc it (hperm.mem_iff.mp hit)
  rw [hcode, hkeys, List.map_map]
  apply List.map_congr_left
  intro i _
  simp

/-- Any sequence read through the Phase A indices: `S[j]` is the value at the
index in slot `j`. -/
theorem map_indexOf (S : List Nat) (K : List Int) :
    (phase_a_indices S.length K).map
      (fun k => S.getD ((phase_a_indices S.length K).indexOf k) 0) = S := by
  have hp := phase_a_indices_perm S.length K
  have hnd : (phase_a_indices S.length K).Nodup := hp.nodup_iff.mpr (List.nodup_range _)
  have hlen : (phase_a_indices S.length K).length = S.length := by
    rw [hp.length_eq, List.length_range]
  apply List.ext_getElem
  · rw [List.length_map, hlen]
  · intro j h1 h2
    rw [List.getElem_map, List.indexOf_getElem hnd, List.getD_eq_getElem?_getD,
      List.getElem?_eq_getElem h2]
    rfl

/-- The output of `reverse`: slot `k` holds the element of `msg` found at the
position where Phase A left the index `k`. -/
theorem reverse_eq_map_indexOf (S : List Nat) (K : List Int) :
    reverse S K = (List.range S.length).map
      (fun k => S.getD ((phase_a_indices S.length K).indexOf k) 0) := by
  unfold reverse
  have hS := map_indexOf S K
  unfold phase_a_indices at hS
  rw [List.map_map] at hS
  have hr := retag_map (phase_a S.length K)
    (fun k => S.getD ((phase_a_indices S.length K).indexOf k) 0)
  unfold phase_a_indices at hr
  simp only [Function.comp_def] at hS
  rw [hS] at hr
  rw [hr]
  apply sort_by_key
  · rw [List.map_map]
    have h := List.Perm.map (fun i : Nat => (i : Int)) (phase_a_indices_perm S.length K)
    rw [phase_a_indices, List.map_map] at h
    exact h
  · intro it hit
    rw [List.mem_map] at hit
    obtain ⟨a, _, rfl⟩ := hit
    simp [phase_a_indices]

/-- The function `reverse` is also a right inverse of `transpose`. -/
theorem transpose_reverse (S : List Nat) (K : List Int) : transpose (reverse S K) K = S := by
  rw [transpose_eq_map_indices, reverse_length]
  conv_rhs => rw [← map_indexOf S K]
  apply List.map_congr_left
  intro i hi
  have hi' : i < S.length := List.mem_range.mp ((phase_a_indices_perm S.length K).mem_iff.mp hi)
  rw [reverse_eq_map_indexOf, List.getD_eq_getElem?_getD, List.getElem?_map,
    List.getElem?_range hi']
  rfl

/-- Under a key of one character all items carry the same tags. -/
theorem transpose_one (S : List Nat) (K : List Int) (h : strlen K = 1) : transpose S K = S := by
  unfold transpose
  rw [mergesort_eq, List.mergeSort_of_sorted, fill_items_codes]
  rw [fill_items_eq K (by omega) S, List.pairwise_map, h]
  refine (List.pairwise_lt_range _).imp ?_
  intro a b _
  rw [item_le_iff]
  simp [Nat.mod_one]

theorem reverse_one (S : List Nat) (K : List Int) (h : strlen K = 1) : reverse S K = S := by
  conv_lhs => rw [← transpose_one S K h]
  exact reverse_transpose S K

/-! ## The modes of `main` -/

theorem main_eq (crypt simple outfile : Bool) (key1 key2 : List Int) (input text : List Nat)
    (hk1 : key_nonempty key1) (hk2 : simple = false → key_nonempty key2)
    (hr : read_all input = Except.ok text) (hlen : text.length > 0) :
    main crypt simple outfile key1 key2 input
      = finish outfile (write_all (permuted_text crypt simple key1 key2 text)) := by
  cases hw : write_all (permuted_text crypt simple key1 key2 text) with
  | mk out st =>
    have k1 : key_at key1 0 ≠ 0 := hk1
    unfold permuted_text encrypt_text decrypt_text at hw
    unfold main finish
    rw [if_neg k1, hr]
    simp only []
    rw [if_pos hlen]
    cases simple
    · have k2 : key_at key2 0 ≠ 0 := hk2 rfl
      rw [if_neg (by simpa using k2)]
      cases crypt
      · simp only [Bool.not_false, Bool.false_eq_true, if_false, if_true] at hw ⊢
        rw [hw]
      · simp only [Bool.not_false, Bool.false_eq_true, if_false, if_true] at hw ⊢
        rw [hw]
    · rw [if_neg (by simp)]
      cases crypt
      · simp only [Bool.not_true, Bool.false_eq_true, if_false, if_true] at hw ⊢
        rw [hw]
      · simp only [Bool.not_true, Bool.false_eq_true, if_false, if_true] at hw ⊢
        rw [hw]

theorem main_empty_text (crypt simple outfile : Bool) (key1 key2 : List Int) (input : List Nat)
    (hk1 : key_nonempty key1) (hk2 : simple = false → key_nonempty key2)
    (hr : read_all input = Except.ok []) :
    main crypt simple outfile key1 key2 input = { out := [], removed := false, status := none } := by
  have k1 : key_at key1 0 ≠ 0 := hk1
  unfold main
  rw [if_neg k1, hr]
  cases simple
  · have k2 : key_at key2 0 ≠ 0 := hk2 rfl
    simp [k2]
  · simp

theorem main_read_error (crypt simple outfile : Bool) (key1 key2 : List Int) (input : List Nat)
    (e : Fatal) (hk1 : key_nonempty key1) (hk2 : simple = false → key_nonempty key2)
    (hr : read_all input = Except.error e) :
    main crypt simple outfile key1 key2 input = fatal outfile [] e := by
  have k1 : key_at key1 0 ≠ 0 := hk1
  unfold main
  rw [if_neg k1, hr]
  cases simple
  · have k2 : key_at key2 0 ≠ 0 := hk2 rfl
    simp [k2]
  · simp

theorem main_key1_empty (crypt simple outfile : Bool) (key1 key2 : List Int) (input : List Nat)
    (h : ¬ key_nonempty key1) :
    main crypt simple outfile key1 key2 input = fatal outfile [] Fatal.key1_has_length_zero := by
  have h0 : key_at key1 0 = 0 := by
    unfold key_nonempty at h
    simpa using h
  simp [main, h0]

theorem main_key2_empty (crypt simple outfile : Bool) (key1 key2 : List Int) (input : List Nat)
    (h1 : key_nonempty key1) (hs : simple = false) (h2 : ¬ key_nonempty key2) :
    main crypt simple outfile key1 key2 input = fatal outfile [] Fatal.key2_has_length_zero := by
  have k1 : key_at key1 0 ≠ 0 := h1
  have h0 : key_at key2 0 = 0 := by
    unfold key_nonempty at h2
    simpa using h2
  simp [main, k1, hs, h0]

theorem main_single_ignores_key2 (crypt outfile : Bool) (key1 key2 key2' : List Int)
    (input : List Nat) :
    main crypt true outfile key1 key2 input = main crypt true outfile key1 key2' input := by
  unfold main
  simp

theorem permuted_text_perm (crypt simple : Bool) (key1 key2 : List Int) (text : List Nat) :
    (permuted_text crypt simple key1 key2 text).Perm text := by
  unfold permuted_text decrypt_text
  cases crypt
  · cases simple
    · exact (reverse_perm _ key1).trans (reverse_perm _ key2)
    · exact reverse_perm _ key1
  · exact encrypt_text_perm simple key1 key2 text

theorem read_all_error (B : List Nat) (e : Fatal) (h : read_all B = Except.error e) :
    e = Fatal.bad_input_utf8_sequence ∨ e = Fatal.bad_input_utf8_last_sequence := by
  unfold read_all at h
  split at h
  · rename_i e' heq
    injection h with h
    subst h
    exact Or.inl (read_loop_error B _ _ _ _ heq)
  · split_ifs at h
    injection h with h
    exact Or.inr h.symm

/-- The possible ends of a run of `main`: a refused key or input, before any
byte of the text is written, or a complete output. -/
theorem main_outcome (crypt simple outfile : Bool) (key1 key2 : List Int) (input : List Nat) :
    (∃ e, main crypt simple outfile key1 key2 input = fatal outfile [] e
        ∧ (e = Fatal.key1_has_length_zero ∨ e = Fatal.key2_has_length_zero
          ∨ e = Fatal.bad_input_utf8_sequence ∨ e = Fatal.bad_input_utf8_last_sequence))
      ∨ (∃ text, read_all input = Except.ok text
          ∧ main crypt simple outfile key1 key2 input
            = { out := if text = [] then []
                  else (write_all (permuted_text crypt simple key1 key2 text)).1,
                removed := false, status := none }) := by
  by_cases hk1 : key_nonempty key1
  · by_cases hk2 : simple = false → key_nonempty key2
    · cases hr : read_all input with
      | error e =>
        left
        exact ⟨e, main_read_error crypt simple outfile key1 key2 input e hk1 hk2 hr,
          Or.inr (Or.inr (read_all_error input e hr))⟩
      | ok text =>
        right
        refine ⟨text, rfl, ?_⟩
        cases text with
        | nil =>
          rw [main_empty_text crypt simple outfile key1 key2 input hk1 hk2 hr]
          rfl
        | cons c rest =>
          rw [main_eq crypt simple outfile key1 key2 input (c :: rest) hk1 hk2 hr (by simp)]
          have hv : ∀ x ∈ permuted_text crypt simple key1 key2 (c :: rest), valid_scalar x :=
            fun x hx => read_all_valid input _ hr x
              ((permuted_text_perm crypt simple key1 key2 (c :: rest)).mem_iff.mp hx)
          rw [write_all, write_loop_valid _ [] hv]
          simp [finish]
    · left
      refine ⟨Fatal.key2_has_length_zero, ?_, Or.inr (Or.inl rfl)⟩
      have hs : simple = false := by
        by_contra hne
        exact hk2 (fun h => absurd h hne)
      have hk2' : ¬ key_nonempty key2 := fun h => hk2 (fun _ => h)
      exact main_key2_empty crypt simple outfile key1 key2 input hk1 hs hk2'
  · left
    exact ⟨Fatal.key1_has_length_zero,
      main_key1_empty crypt simple outfile key1 key2 input hk1, Or.inl rfl⟩

/-! ## Feeding bytes to `utf8_decode` -/

theorem utf8_decode_accept (cp cp' b : Nat) : utf8_decode 0 cp b = utf8_decode 0 cp' b := by
  simp [utf8_decode, UTF8_ACCEPT]

theorem decode_feed_accept (cp cp' : Nat) (bs : List Nat) :
    decode_feed 0 cp bs = decode_feed 0 cp' bs := by
  cases bs with
  | nil => rfl
  | cons b bs => rw [decode_feed, decode_feed, utf8_decode_accept cp cp' b]

theorem final_state_cons (s : Nat) (r : Nat × Nat) (tr : List (Nat × Nat)) :
    final_state s (r :: tr) = final_state r.1 tr := by
  unfold final_state
  cases tr with
  | nil => rfl
  | cons a l =>
    rw [List.getLast?_cons_cons, List.getLast?_eq_getLast (a :: l) (by simp)]
    rfl

/-- A run of the loop of `read_all` that does not fail, seen as a feed of
`utf8_decode`: no call returns `UTF8_REJECT`, the last state is the state of
the loop and the code points stored are those that the feed completed. -/
theorem read_loop_feed (bs : List Nat) : ∀ (s cp : Nat) (u : List Nat) (s' cp' : Nat)
    (u' : List Nat), (∀ b ∈ bs, b < 256) → read_loop bs s cp u = Except.ok (s', cp', u') →
    (∀ r ∈ decode_feed s cp bs, r.1 ≠ UTF8_REJECT) ∧ final_state s (decode_feed s cp bs) = s'
      ∧ u' = u ++ emitted (decode_feed s cp bs) := by
  induction bs with
  | nil =>
    intro s cp u s' cp' u' _ h
    rw [read_loop_nil] at h
    injection h with h
    injection h with h1 h2
    injection h2 with h2 h3
    subst h1 h3
    simp [decode_feed, final_state, emitted]
  | cons b bs ih =>
    intro s cp u s' cp' u' hb h
    have hb0 : b % 256 = b := Nat.mod_eq_of_lt (hb b (List.mem_cons_self _ _))
    have hbs : ∀ x ∈ bs, x < 256 := fun x hx => hb x (List.mem_cons_of_mem _ hx)
    rw [read_loop_cons, hb0] at h
    rw [decode_feed, final_state_cons]
    split_ifs at h with h0 h12
    · have hst : (utf8_decode s cp b).1 = 0 := by rw [utf8_decode_state]; exact h0
      obtain ⟨i1, i2, i3⟩ := ih 0 0 _ s' cp' u' hbs h
      rw [hst, decode_feed_accept (utf8_decode s cp b).2 0]
      refine ⟨?_, i2, ?_⟩
      · intro r hr
        rcases List.mem_cons.mp hr with hr | hr
        · rw [hr, hst]
          decide
        · exact i1 r hr
      · rw [i3]
        simp [emitted, List.filter_cons, hst, UTF8_ACCEPT]
    · have hst : (utf8_decode s cp b).1 = next_state s b := utf8_decode_state s cp b
      obtain ⟨i1, i2, i3⟩ := ih _ _ _ s' cp' u' hbs h
      rw [hst]
      refine ⟨?_, i2, ?_⟩
      · intro r hr
        rcases List.mem_cons.mp hr with hr | hr
        · rw [hr, hst]
          exact h12
        · exact i1 r hr
      · rw [i3]
        simp [emitted, List.filter_cons, hst, UTF8_ACCEPT, h0]

theorem utf8_standard_lt (c : Nat) (h : valid_scalar c) : ∀ b ∈ utf8_standard c, b < 256 := by
  unfold valid_scalar at h
  unfold utf8_standard
  split_ifs <;> simp only [List.mem_cons, List.mem_singleton, List.not_mem_nil, or_false] <;>
    omega

theorem utf8_stream_lt (C : List Nat) (h : ∀ c ∈ C, valid_scalar c) :
    ∀ b ∈ utf8_stream C, b < 256 := by
  intro b hb
  unfold utf8_stream at hb
  rw [List.mem_flatMap] at hb
  obtain ⟨c, hc, hb⟩ := hb
  exact utf8_standard_lt c (h c hc) b hb

theorem utf8_code_stream (C : List Nat) (h : ∀ c ∈ C, valid_scalar c) :
    C.flatMap (fun c => (utf8_code c).2) = utf8_stream C := by
  unfold utf8_stream
  apply List.flatMap_congr
  intro c hc
  rw [utf8_code_valid c (h c hc)]

/-- Decoding undoes encoding, call by call. -/
theorem decode_feed_stream (C : List Nat) (h : ∀ c ∈ C, valid_scalar c) (cp : Nat) :
    (∀ r ∈ decode_feed 0 cp (utf8_stream C), r.1 ≠ UTF8_REJECT)
      ∧ final_state 0 (decode_feed 0 cp (utf8_stream C)) = 0
      ∧ emitted (decode_feed 0 cp (utf8_stream C)) = C := by
  obtain ⟨cp', hr⟩ := read_loop_stream C cp [] h
  obtain ⟨i1, i2, i3⟩ := read_loop_feed _ 0 cp [] 0 cp' _ (utf8_stream_lt C h) hr
  refine ⟨i1, i2, ?_⟩
  simpa using i3.symm

/-! ## The range of `compare` -/

theorem wrap_int_of_range (x : Int) (h : int_range x) : wrap_int x = x := by
  unfold int_range at h
  unfold wrap_int
  omega

/-- The sign of `compare` is the lexicographic order of `(key, subkey)`. -/
theorem compare_sign (a b : tc_item) :
    (compare a b < 0 ↔ lex_lt a b) ∧ (compare a b = 0 ↔ (a.key = b.key ∧ a.subkey = b.subkey))
      ∧ (0 < compare a b ↔ lex_lt b a) := by
  unfold compare lex_lt
  split <;> omega

theorem key_at_char (K : List Int) (hK : ∀ c ∈ K, char_value c) (k : Nat) :
    char_value (key_at K k) := by
  unfold key_at
  rw [List.getD_eq_getElem?_getD]
  by_cases h : k < K.length
  · rw [List.getElem?_eq_getElem h]
    exact hK _ (List.getElem_mem h)
  · rw [List.getElem?_eq_none (by omega)]
    decide

theorem next_k_le (K : List Int) (k : Nat) : next_k K k ≤ k + 1 := by
  unfold next_k
  split <;> omega

theorem fill_items_fields (K : List Int) (hK : ∀ c ∈ K, char_value c) (cs : List Nat) :
    ∀ k : Nat, ∀ a ∈ fill_items K k cs,
      char_value a.key ∧ 0 ≤ a.subkey ∧ a.subkey < ((k + cs.length : Nat) : Int) := by
  induction cs with
  | nil => intro k a ha; simp [fill_items] at ha
  | cons c cs ih =>
    intro k a ha
    rw [fill_items, List.mem_cons] at ha
    rcases ha with ha | ha
    · subst ha
      refine ⟨key_at_char K hK k, ?_, ?_⟩
      · simp
      · simp only [List.length_cons]
        omega
    · obtain ⟨h1, h2, h3⟩ := ih (next_k K k) a ha
      refine ⟨h1, h2, ?_⟩
      have := next_k_le K k
      simp only [List.length_cons]
      omega

/-- The items that `transpose` and Phase A of `reverse` hand to the sort. -/
theorem fill_items_tagged (K : List Int) (hK : ∀ c ∈ K, char_value c) (cs : List Nat) :
    ∀ a ∈ fill_items K 0 cs, tagged_item cs.length a := by
  intro a ha
  have h := fill_items_fields K hK cs 0 a ha
  rw [Nat.zero_add] at h
  exact h

/-- Two items of one tagging loop on a text of at most `INT_MAX` elements:
the subtractions of `compare` stay in the range of `int`. -/
theorem tagged_no_overflow (len : Nat) (hlen : len ≤ 2147483647) (a b : tc_item)
    (ha : tagged_item len a) (hb : tagged_item len b) :
    int_range (a.key - b.key) ∧ int_range (a.subkey - b.subkey) ∧ compare_int a b = compare a b := by
  unfold tagged_item char_value at ha hb
  have h1 : int_range (a.key - b.key) := by unfold int_range; omega
  have h2 : int_range (a.subkey - b.subkey) := by unfold int_range; omega
  refine ⟨h1, h2, ?_⟩
  unfold compare_int compare
  rw [wrap_int_of_range _ h1, wrap_int_of_range _ h2]

theorem retagged_no_overflow (len : Nat) (hlen : len ≤ 2147483647) (a b : tc_item)
    (ha : retagged_item len a) (hb : retagged_item len b) :
    int_range (a.key - b.key) ∧ int_range (a.subkey - b.subkey) ∧ compare_int a b = compare a b := by
  unfold retagged_item at ha hb
  have h1 : int_range (a.key - b.key) := by unfold int_range; omega
  have h2 : int_range (a.subkey - b.subkey) := by unfold int_range; omega
  refine ⟨h1, h2, ?_⟩
  unfold compare_int compare
  rw [wrap_int_of_range _ h1, wrap_int_of_range _ h2]

theorem mem_retag (items : List tc_item) : ∀ (msg : List Nat) (a : tc_item),
    a ∈ retag items msg →
    ∃ it ∈ items, a.key = (it.code : Int) ∧ a.subkey = it.subkey := by
  induction items with
  | nil => intro msg a ha; simp [retag] at ha
  | cons x l ih =>
    intro msg a ha
    cases msg with
    | nil => simp [retag] at ha
    | cons m ms =>
      simp only [retag, List.zipWith_cons_cons, List.mem_cons] at ha
      rcases ha with ha | ha
      · subst ha
        exact ⟨x, List.mem_cons_self _ _, rfl, rfl⟩
      · obtain ⟨it, hit, h⟩ := ih ms a ha
        exact ⟨it, List.mem_cons_of_mem _ hit, h⟩

theorem retag_keys (items : List tc_item) : ∀ (msg : List Nat), msg.length = items.length →
    (retag items msg).map (fun it => it.key) = items.map (fun it => (it.code : Int)) := by
  induction items with
  | nil => intro msg _; rfl
  | cons x l ih =>
    intro msg h
    cases msg with
    | nil => simp at h
    | cons m ms =>
      simp only [retag, List.zipWith_cons_cons, List.map_cons, List.cons.injEq, true_and]
      exact ih ms (by simpa using h)

theorem mem_phase_a (K : List Int) (n : Nat) (a : tc_item) :
    a ∈ phase_a n K ↔ a ∈ fill_items K 0 (List.range n) := by
  unfold phase_a
  exact (mergesort_perm _).mem_iff

/-- The items of Phase B of `reverse`. -/
theorem retag_retagged (K : List Int) (hK : ∀ c ∈ K, char_value c) (msg : List Nat) :
    ∀ a ∈ retag (phase_a msg.length K) msg, retagged_item msg.length a := by
  intro a ha
  obtain ⟨it, hit, hk, hs⟩ := mem_retag _ msg a ha
  have hcode : it.code ∈ phase_a_indices msg.length K := List.mem_map_of_mem _ hit
  have hlt : it.code < msg.length :=
    List.mem_range.mp ((phase_a_indices_perm msg.length K).mem_iff.mp hcode)
  have hf := fill_items_tagged K hK (List.range msg.length) it ((mem_phase_a K _ it).mp hit)
  rw [List.length_range] at hf
  unfold tagged_item at hf
  unfold retagged_item
  rw [hk, hs]
  omega

/-- In Phase B of `reverse` the keys are pairwise distinct. -/
theorem retag_keys_nodup (K : List Int) (msg : List Nat) :
    ((retag (phase_a msg.length K) msg).map (fun it => it.key)).Nodup := by
  rw [retag_keys _ msg (by rw [phase_a_length])]
  have h : ((phase_a_indices msg.length K).map (fun i : Nat => (i : Int))).Nodup :=
    ((phase_a_indices_perm msg.length K).nodup_iff.mpr (List.nodup_range _)).map
      (fun x y hxy => by simpa using hxy)
  rw [phase_a_indices, List.map_map] at h
  exact h

/-- In Phase B of `reverse` two items with the same key are the same item. -/
theorem retag_key_inj (K : List Int) (msg : List Nat) (a b : tc_item)
    (ha : a ∈ retag (phase_a msg.length K) msg) (hb : b ∈ retag (phase_a msg.length K) msg)
    (h : a.key = b.key) : a = b :=
  List.inj_on_of_nodup_map (retag_keys_nodup K msg) ha hb h

/-- In Phase B of `reverse` the order of `compare` is the order of the keys. -/
theorem retag_compare_key (K : List Int) (msg : List Nat) (a b : tc_item)
    (ha : a ∈ retag (phase_a msg.length K) msg) (hb : b ∈ retag (phase_a msg.length K) msg) :
    (compare a b < 0 ↔ a.key < b.key) ∧ (compare a b = 0 ↔ a.key = b.key)
      ∧ (0 < compare a b ↔ b.key < a.key) := by
  by_cases h : a.key = b.key
  · have hab := retag_key_inj K msg a b ha hb h
    subst hab
    unfold compare
    simp
  · unfold compare
    rw [if_neg h]
    omega

/-- Under a non-empty key the subkey is a column below the length of the key. -/
theorem fill_items_column (K : List Int) (hK : key_nonempty K) (cs : List Nat) :
    ∀ a ∈ fill_items K 0 cs, 0 ≤ a.subkey ∧ a.subkey < (strlen K : Int) := by
  intro a ha
  have hpos := strlen_pos K hK
  rw [fill_items_eq K hpos cs, List.mem_map] at ha
  obtain ⟨i, _, rfl⟩ := ha
  have := Nat.mod_lt i hpos
  simp only []
  omega

/-! ## Claims -/

/-- C1: for every code point sequence `S` and every non-empty key `K`,
`reverse (transpose S K) K` is `S`. -/
theorem C1_reverse_transpose (S : List Nat) (K : List Int) (_hK : key_nonempty K) :
    reverse (transpose S K) K = S :=
  reverse_transpose S K

/-- A run of C1 on the sequence 1..6 and the key "bca". -/
theorem C1_reverse_transpose_witness :
    key_nonempty [98, 99, 97]
      ∧ reverse (transpose [1, 2, 3, 4, 5, 6] [98, 99, 97]) [98, 99, 97] = [1, 2, 3, 4, 5, 6] :=
  ⟨by decide, C1_reverse_transpose [1, 2, 3, 4, 5, 6] [98, 99, 97] (by decide)⟩

/-- C2: for every code point sequence `S` and all non-empty keys `K1` and
`K2`, undoing the two stages of a double transposition in reverse order,
`reverse (reverse (transpose (transpose S K1) K2) K2) K1`, gives `S`. -/
theorem C2_double_round_trip (S : List Nat) (K1 K2 : List Int)
    (_hK1 : key_nonempty K1) (_hK2 : key_nonempty K2) :
    reverse (reverse (transpose (transpose S K1) K2) K2) K1 = S := by
  rw [reverse_transpose, reverse_transpose]

/-- A run of C2 on the sequence 1..6 and the keys "bca" and "da". -/
theorem C2_double_round_trip_witness :
    key_nonempty [98, 99, 97] ∧ key_nonempty [100, 97]
      ∧ reverse (reverse (transpose (transpose [1, 2, 3, 4, 5, 6] [98, 99, 97]) [100, 97])
          [100, 97]) [98, 99, 97] = [1, 2, 3, 4, 5, 6] :=
  ⟨by decide, by decide,
    C2_double_round_trip [1, 2, 3, 4, 5, 6] [98, 99, 97] [100, 97] (by decide) (by decide)⟩

/-- C3 fails on the code: the one-byte stream `00` is valid UTF-8 and decodes to
the code point 0, but `write_all` writes it through `fputs` as an empty string,
so nothing comes out; inside a text the NUL is dropped. -/
theorem C3_nul_code_point_dropped :
    read_all [0] = Except.ok [0] ∧ write_all [0] = ([], none)
      ∧ read_all [0x61, 0, 0x62] = Except.ok [0x61, 0, 0x62]
      ∧ write_all [0x61, 0, 0x62] = ([0x61, 0x62], none) := by
  decide

/-- C4 fails on the code: with the non-empty keys "a" and "b" in single-key
mode the valid stream `61 00 62` is encrypted to `61 62`, the NUL being dropped
by `write_all`, and decrypting `61 62` gives `61 62`, not the input; in
double-key mode with the keys "ba" and "cab" the stream `61 00 62 63` is
encrypted to `63 61 62` and decrypted to `63 62 61`. -/
theorem C4_pipeline_drops_nul :
    key_nonempty [97] ∧ key_nonempty [98]
      ∧ read_all [0x61, 0, 0x62] = Except.ok [0x61, 0, 0x62]
      ∧ main true true false [97] [98] [0x61, 0, 0x62]
        = { out := [0x61, 0x62], removed := false, status := none }
      ∧ main false true false [97] [98] [0x61, 0x62]
        = { out := [0x61, 0x62], removed := false, status := none }
      ∧ main true false false [98, 97] [99, 97, 98] [0x61, 0, 0x62, 0x63]
        = { out := [0x63, 0x61, 0x62], removed := false, status := none }
      ∧ main false false false [98, 97] [99, 97, 98] [0x63, 0x61, 0x62]
        = { out := [0x63, 0x62, 0x61], removed := false, status := none } := by
  decide

/-- C5: for every sequence `S` and every non-empty key `K` of length `L`,
`transpose S K` is the concatenation, over the columns `c < min L n` taken in
ascending order of `(K[c], c)`, of `S[c], S[c + L], S[c + 2L], ...` in
increasing row order; in particular `transpose [1,2,3,4,5,6] "bca"` is
`[3,6,1,4,2,5]` and `reverse [3,6,1,4,2,5] "bca"` is `[1,2,3,4,5,6]`. -/
theorem C5_transpose_reads_columns :
    (∀ (S : List Nat) (K : List Int), key_nonempty K → transpose S K = transpose_columns S K)
      ∧ transpose [1, 2, 3, 4, 5, 6] [98, 99, 97] = [3, 6, 1, 4, 2, 5]
      ∧ reverse [3, 6, 1, 4, 2, 5] [98, 99, 97] = [1, 2, 3, 4, 5, 6] :=
  ⟨transpose_eq_columns, by decide, by decide⟩

/-- A run of C5 on a key with a repeated character, "abab" on eleven
elements: the two `a` columns are read first, in column order, each from top
to bottom. -/
theorem C5_transpose_reads_columns_witness :
    key_nonempty [97, 98, 97, 98]
      ∧ transpose_columns [0, 1, 2, 3, 4, 5, 6, 7, 8, 9, 10] [97, 98, 97, 98]
          = [0, 4, 8, 2, 6, 10, 1, 5, 9, 3, 7]
      ∧ transpose [0, 1, 2, 3, 4, 5, 6, 7, 8, 9, 10] [97, 98, 97, 98]
          = transpose_columns [0, 1, 2, 3, 4, 5, 6, 7, 8, 9, 10] [97, 98, 97, 98] :=
  ⟨by decide, by decide,
    C5_transpose_reads_columns.1 [0, 1, 2, 3, 4, 5, 6, 7, 8, 9, 10] [97, 98, 97, 98] (by decide)⟩

/-- C6: for every length `n` and every non-empty key `K` the indices held by
the items after Phase A of `reverse` are a rearrangement of `0 .. n - 1`, each
index of `[0, n)` occurring exactly once and no other value occurring, and the
output of `transpose S K` is a rearrangement of `S` of the same length. -/
theorem C6_index_bijection (n : Nat) (K : List Int) (_hK : key_nonempty K) :
    (phase_a_indices n K).Perm (List.range n)
      ∧ (phase_a_indices n K).Nodup
      ∧ (∀ i, (phase_a_indices n K).count i = if i < n then 1 else 0)
      ∧ ∀ S : List Nat, S.length = n →
          (transpose S K).Perm S ∧ (transpose S K).length = S.length
            ∧ ∀ x, (transpose S K).count x = S.count x := by
  have hp := phase_a_indices_perm n K
  refine ⟨hp, hp.nodup_iff.mpr (List.nodup_range n), ?_, ?_⟩
  · intro i
    rw [hp.count_eq]
    split_ifs with h
    · exact List.count_eq_one_of_mem (List.nodup_range n) (List.mem_range.mpr h)
    · exact List.count_eq_zero_of_not_mem (fun hm => h (List.mem_range.mp hm))
  · intro S _
    exact ⟨transpose_perm S K, transpose_length S K, fun x => (transpose_perm S K).count_eq x⟩

/-- A run of C6 on length 6 and the key "bca". -/
theorem C6_index_bijection_witness :
    key_nonempty [98, 99, 97] ∧ (phase_a_indices 6 [98, 99, 97]).Perm (List.range 6) :=
  ⟨by decide, (C6_index_bijection 6 [98, 99, 97] (by decide)).1⟩

/-- C7: decoding fails (1) for every stream at whose end the automaton is not
in the state `UTF8_ACCEPT`, in particular for a decodable stream followed by a
proper non-empty part of the encoding of a code point, (2) for every stream
that contains an overlong encoding of an ASCII character in two, three or four
bytes, and (3) for every stream that contains the bytes `ED A0 80 .. ED BF BF`
of a surrogate. In case (1) `read_all` fails after the stream is exhausted
("bad input utf8 last sequence"), in cases (2) and (3) because `utf8_decode`
reached `UTF8_REJECT` ("bad input utf8 sequence"). -/
theorem C7_decode_failures :
    (∀ (B : List Nat) (s cp : Nat) (u : List Nat),
        read_loop B UTF8_ACCEPT 0 [] = Except.ok (s, cp, u) → s ≠ UTF8_ACCEPT →
        read_all B = Except.error Fatal.bad_input_utf8_last_sequence)
      ∧ (∀ (P u : List Nat) (c k : Nat), read_all P = Except.ok u → valid_scalar c →
          0 < k → k < (utf8_code c).2.length →
          read_all (P ++ (utf8_code c).2.take k) = Except.error Fatal.bad_input_utf8_last_sequence)
      ∧ (∀ (P R : List Nat) (c : Nat), c < 0x80 → ∀ l ∈ overlong_ascii c,
          read_all (P ++ l ++ R) = Except.error Fatal.bad_input_utf8_sequence)
      ∧ (∀ (P R : List Nat) (c : Nat), 0xD800 ≤ c → c ≤ 0xDFFF →
          read_all (P ++ three_byte_form c ++ R) = Except.error Fatal.bad_input_utf8_sequence) :=
  ⟨read_all_pending, read_all_cut, read_all_overlong, read_all_surrogate⟩

/-- Runs of C7: "a" followed by the first two bytes of the euro sign; the
overlong `E0 80 80` and the surrogate `ED A0 80` between "a" and "b". -/
theorem C7_decode_failures_witness :
    (read_all [0x61] = Except.ok [0x61] ∧ valid_scalar 0x20AC
        ∧ (utf8_code 0x20AC).2.take 2 = [0xE2, 0x82]
        ∧ read_all ([0x61] ++ (utf8_code 0x20AC).2.take 2)
            = Except.error Fatal.bad_input_utf8_last_sequence)
      ∧ ([0xE0, 0x80, 0x80] ∈ overlong_ascii 0
        ∧ read_all ([0x61] ++ [0xE0, 0x80, 0x80] ++ [0x62])
            = Except.error Fatal.bad_input_utf8_sequence)
      ∧ (three_byte_form 0xD800 = [0xED, 0xA0, 0x80]
        ∧ read_all ([0x61] ++ three_byte_form 0xD800 ++ [0x62])
            = Except.error Fatal.bad_input_utf8_sequence) :=
  ⟨⟨by decide, by decide, by decide,
      C7_decode_failures.2.1 [0x61] [0x61] 0x20AC 2 (by decide) (by decide) (by decide)
        (by decide)⟩,
    ⟨by decide, C7_decode_failures.2.2.1 [0x61] [0x62] 0 (by decide) [0xE0, 0x80, 0x80]
      (by decide)⟩,
    ⟨by decide, C7_decode_failures.2.2.2 [0x61] [0x62] 0xD800 (by decide) (by decide)⟩⟩

/-- C8: for every code point `c`, `utf8_code` sets the state to `UTF8_REJECT`
and stores no byte exactly when `c >= 0x110000` or `c` is a surrogate;
otherwise it sets the state to `UTF8_ACCEPT` and stores the standard UTF-8
encoding of `c`: 1 byte below 0x80, 2 bytes below 0x800, 3 bytes below 0x10000
and 4 bytes from 0x10000 on. -/
theorem C8_utf8_code (c : Nat) :
    (((utf8_code c).1 = UTF8_REJECT ∧ (utf8_code c).2 = [])
        ↔ (c ≥ 0x110000 ∨ (0xD800 ≤ c ∧ c ≤ 0xDFFF)))
      ∧ (¬ (c ≥ 0x110000 ∨ (0xD800 ≤ c ∧ c ≤ 0xDFFF)) →
          (utf8_code c).1 = UTF8_ACCEPT ∧ (utf8_code c).2 = utf8_standard c
            ∧ (c < 0x80 → (utf8_code c).2 = [c])
            ∧ (0x80 ≤ c → c < 0x800 → (utf8_code c).2 = [0xC0 + c / 64, 0x80 + c % 64])
            ∧ (0x800 ≤ c → c < 0x10000 →
                (utf8_code c).2 = [0xE0 + c / 4096, 0x80 + c / 64 % 64, 0x80 + c % 64])
            ∧ (0x10000 ≤ c →
                (utf8_code c).2
                  = [0xF0 + c / 262144, 0x80 + c / 4096 % 64, 0x80 + c / 64 % 64, 0x80 + c % 64])) := by
  by_cases hv : valid_scalar c
  · rw [utf8_code_valid c hv]
    unfold valid_scalar at hv
    refine ⟨?_, ?_⟩
    · simp only [UTF8_ACCEPT, UTF8_REJECT]
      constructor
      · intro h
        omega
      · intro h
        omega
    · intro _
      refine ⟨rfl, rfl, ?_, ?_, ?_, ?_⟩
      · intro h
        simp only [utf8_standard]
        rw [if_pos h]
      · intro h1 h2
        simp only [utf8_standard]
        rw [if_neg (by omega), if_pos h2]
      · intro h1 h2
        simp only [utf8_standard]
        rw [if_neg (by omega), if_neg (by omega), if_pos h2]
      · intro h1
        simp only [utf8_standard]
        rw [if_neg (by omega), if_neg (by omega), if_neg (by omega)]
  · rw [utf8_code_invalid c hv]
    unfold valid_scalar at hv
    refine ⟨?_, ?_⟩
    · constructor
      · intro _
        omega
      · intro _
        exact ⟨rfl, rfl⟩
    · intro h
      omega

/-- C9: every code point that the loop of `read_all` has stored, on any byte
stream and also when the stream ends inside a sequence, is at most 0x10FFFF and
no surrogate; so `utf8_code` accepts every element of a sequence returned by
`read_all`, also after `transpose` or `reverse`, and `write_all` does not call
`fatal` on them. -/
theorem C9_decoded_scalars (B : List Nat) :
    (∀ (s cp : Nat) (u : List Nat), read_loop B UTF8_ACCEPT 0 [] = Except.ok (s, cp, u) →
        ∀ c ∈ u, c ≤ 0x10FFFF ∧ ¬ (0xD800 ≤ c ∧ c ≤ 0xDFFF))
      ∧ (∀ u : List Nat, read_all B = Except.ok u → ∀ K : List Int,
          (∀ c ∈ u, (utf8_code c).1 = UTF8_ACCEPT ∧ (utf8_code c).1 ≠ UTF8_REJECT)
            ∧ (∀ c ∈ transpose u K, (utf8_code c).1 = UTF8_ACCEPT ∧ (utf8_code c).1 ≠ UTF8_REJECT)
            ∧ (∀ c ∈ reverse u K, (utf8_code c).1 = UTF8_ACCEPT ∧ (utf8_code c).1 ≠ UTF8_REJECT)
            ∧ (write_all u).2 = none ∧ (write_all (transpose u K)).2 = none
            ∧ (write_all (reverse u K)).2 = none) := by
  constructor
  · intro s cp u h
    exact (read_loop_inv B 0 0 [] (Or.inl rfl) (by simp) s cp u h).2
  · intro u h K
    have hv := read_all_valid B u h
    have hT : ∀ c ∈ transpose u K, valid_scalar c :=
      fun c hc => hv c ((transpose_perm u K).mem_iff.mp hc)
    have hR : ∀ c ∈ reverse u K, valid_scalar c :=
      fun c hc => hv c ((reverse_perm u K).mem_iff.mp hc)
    have acc : ∀ c, valid_scalar c → (utf8_code c).1 = UTF8_ACCEPT ∧ (utf8_code c).1 ≠ UTF8_REJECT := by
      intro c hc
      rw [utf8_code_valid c hc]
      exact ⟨rfl, by simp [UTF8_ACCEPT, UTF8_REJECT]⟩
    refine ⟨fun c hc => acc c (hv c hc), fun c hc => acc c (hT c hc),
      fun c hc => acc c (hR c hc), ?_, ?_, ?_⟩
    · rw [write_all, write_loop_valid u [] hv]
    · rw [write_all, write_loop_valid _ [] hT]
    · rw [write_all, write_loop_valid _ [] hR]

/-- A run of C9 on the bytes of "€a" followed by a truncated sequence. -/
theorem C9_decoded_scalars_witness :
    read_loop [0xE2, 0x82, 0xAC, 0x61, 0xF0, 0x9F] UTF8_ACCEPT 0 [] = Except.ok (36, 31, [0x20AC, 0x61])
      ∧ ∀ c ∈ [0x20AC, 0x61], c ≤ 0x10FFFF ∧ ¬ (0xD800 ≤ c ∧ c ≤ 0xDFFF) :=
  ⟨by decide, (C9_decoded_scalars [0xE2, 0x82, 0xAC, 0x61, 0xF0, 0x9F]).1 36 31 [0x20AC, 0x61]
    (by decide)⟩

/-- C10 as stated fails: given an empty key `transpose` and `reverse` make no
check and return a sequence. -/
theorem C10_engine_accepts_empty_key :
    ¬ key_nonempty [] ∧ transpose [1, 2, 3] [] = [1, 2, 3] ∧ reverse [1, 2, 3] [] = [1, 2, 3] := by
  decide

/-- C10 amended: the empty key is refused by `main`, not by the engine. When
`key1` is empty `main` calls `fatal` with "key1 has length zero", and when
`key1` is not empty, the mode is double-key and `key2` is empty it calls
`fatal` with "key2 has length zero"; both happen before the input is read, so
whatever the input is and before any pass of `transpose` or `reverse`. -/
theorem C10_main_refuses_empty_key (crypt simple outfile : Bool) (key1 key2 : List Int)
    (input : List Nat) :
    (¬ key_nonempty key1 →
        main crypt simple outfile key1 key2 input = fatal outfile [] Fatal.key1_has_length_zero)
      ∧ (key_nonempty key1 → simple = false → ¬ key_nonempty key2 →
        main crypt simple outfile key1 key2 input = fatal outfile [] Fatal.key2_has_length_zero) := by
  unfold key_nonempty
  constructor
  · intro h
    have h0 : key_at key1 0 = 0 := by simpa using h
    simp [main, h0]
  · intro h1 hs h2
    have h0 : key_at key2 0 = 0 := by simpa using h2
    simp [main, h1, hs, h0]

/-- A run of the amended C10: an empty second key in double-key mode, on an
input that is not valid UTF-8. -/
theorem C10_main_refuses_empty_key_witness :
    key_nonempty [98] ∧ ¬ key_nonempty []
      ∧ main true false false [98] [] [0xFF]
        = { out := [10], removed := false, status := some Fatal.key2_has_length_zero } :=
  ⟨by decide, by decide,
    (C10_main_refuses_empty_key true false false [98] [] [0xFF]).2 (by decide) rfl (by decide)⟩

/-- C11: for every non-empty key `K` and every sequence `S` of length 0 or 1,
`transpose S K` is `S`; in particular `transpose [] "x"` is `[]` and
`transpose [42] "xyz"` is `[42]`. -/
theorem C11_transpose_short :
    (∀ (S : List Nat) (K : List Int), key_nonempty K → S.length = 0 ∨ S.length = 1 →
        transpose S K = S)
      ∧ transpose [] [120] = [] ∧ transpose [42] [120, 121, 122] = [42] :=
  ⟨fun S K _ h => transpose_short S K (by omega), by decide, by decide⟩

/-- A run of C11 on a one-element sequence and the key "ba". -/
theorem C11_transpose_short_witness :
    key_nonempty [98, 97] ∧ transpose [7] [98, 97] = [7] :=
  ⟨by decide, C11_transpose_short.1 [7] [98, 97] (by decide) (Or.inr rfl)⟩

/-- C12: for every sequence `S` of length `n` and every key `K` of length
greater than `n`, `transpose S K` is `transpose S K'` where `K'` is the first
`n` characters of `K`, so two such keys with the same first `n` characters give
the same result; in particular `transpose [7,8] "zz z"` is
`transpose [7,8] "zz"`. -/
theorem C12_long_key :
    (∀ (S : List Nat) (K : List Int), S.length < strlen K →
        transpose S K = transpose S (K.take S.length))
      ∧ (∀ (S : List Nat) (K K' : List Int), S.length < strlen K → S.length < strlen K' →
        K.take S.length = K'.take S.length → transpose S K = transpose S K')
      ∧ transpose [7, 8] [122, 122, 32, 122] = transpose [7, 8] [122, 122] := by
  refine ⟨transpose_take, ?_, by decide⟩
  intro S K K' h h' e
  rw [transpose_take S K h, transpose_take S K' h', e]

/-- A run of C12 on three elements and the key "zayx", cut to "zay". -/
theorem C12_long_key_witness :
    [7, 8, 9].length < strlen [122, 97, 121, 120]
      ∧ List.take 3 [122, 97, 121, 120] = ([122, 97, 121] : List Int)
      ∧ transpose [7, 8, 9] [122, 97, 121, 120] = transpose [7, 8, 9] [122, 97, 121] :=
  ⟨by decide, by decide, C12_long_key.1 [7, 8, 9] [122, 97, 121, 120] (by decide)⟩

/-- C13: when the keys are not empty and the decoded text is not empty, `main`
hands to `write_all` the text `transpose (transpose text key1) key2` in
double-key encrypt mode, `reverse (reverse text key2) key1` in double-key
decrypt mode, `transpose text key1` and `reverse text key1` in the single-key
modes, and in single-key mode the run does not depend on `key2`. -/
theorem C13_mode_dispatch (outfile : Bool) (key1 key2 : List Int) (input text : List Nat)
    (hk1 : key_nonempty key1) (hk2 : key_nonempty key2)
    (hr : read_all input = Except.ok text) (hne : text ≠ []) :
    main true false outfile key1 key2 input
        = finish outfile (write_all (transpose (transpose text key1) key2))
      ∧ main false false outfile key1 key2 input
        = finish outfile (write_all (reverse (reverse text key2) key1))
      ∧ main true true outfile key1 key2 input = finish outfile (write_all (transpose text key1))
      ∧ main false true outfile key1 key2 input = finish outfile (write_all (reverse text key1))
      ∧ ∀ (crypt : Bool) (other : List Int),
          main crypt true outfile key1 other input = main crypt true outfile key1 key2 input := by
  have hlen : text.length > 0 := List.length_pos.mpr hne
  exact ⟨main_eq true false outfile key1 key2 input text hk1 (fun _ => hk2) hr hlen,
    main_eq false false outfile key1 key2 input text hk1 (fun _ => hk2) hr hlen,
    main_eq true true outfile key1 key2 input text hk1 (fun _ => hk2) hr hlen,
    main_eq false true outfile key1 key2 input text hk1 (fun _ => hk2) hr hlen,
    fun crypt other => main_single_ignores_key2 crypt outfile key1 other key2 input⟩

/-- A run of C13 on the text "abc" with the keys "ba" and "acb". -/
theorem C13_mode_dispatch_witness :
    key_nonempty [98, 97] ∧ key_nonempty [97, 99, 98]
      ∧ read_all [0x61, 0x62, 0x63] = Except.ok [0x61, 0x62, 0x63]
      ∧ main true false false [98, 97] [97, 99, 98] [0x61, 0x62, 0x63]
        = finish false (write_all (transpose (transpose [0x61, 0x62, 0x63] [98, 97]) [97, 99, 98])) :=
  ⟨by decide, by decide, by decide,
    (C13_mode_dispatch false [98, 97] [97, 99, 98] [0x61, 0x62, 0x63] [0x61, 0x62, 0x63]
      (by decide) (by decide) (by decide) (by decide)).1⟩

/-- C14 as stated fails: when the output is `stdout`, `fatal` writes a newline
to it, so a failing run has emitted one output byte; here on a rejected input,
on a truncated input and on an empty key. -/
theorem C14_newline_on_failure :
    main true true false [97] [98] [0xFF]
        = { out := [10], removed := false, status := some Fatal.bad_input_utf8_sequence }
      ∧ main true true false [97] [98] [0x61, 0xE2, 0x82]
        = { out := [10], removed := false, status := some Fatal.bad_input_utf8_last_sequence }
      ∧ main true true false [] [98] [0x61]
        = { out := [10], removed := false, status := some Fatal.key1_has_length_zero } := by
  decide

/-- C14 amended: a run of `main` fails only on an empty key, a rejected input
or an input that ends inside a sequence (the encoder does not reject a code
point that the decoder produced), and then no byte of the text has been
written: the output holds nothing but the newline that `fatal` prints when the
output is `stdout`, and with `-o` the output file is removed. A run that does
not fail has decoded the whole input and writes the permuted text only. -/
theorem C14_no_text_on_failure (crypt simple outfile : Bool) (key1 key2 : List Int)
    (input : List Nat) :
    ((main crypt simple outfile key1 key2 input).status ≠ none →
        (main crypt simple outfile key1 key2 input).out = (if outfile then [] else [10])
          ∧ (main crypt simple outfile key1 key2 input).removed = outfile
          ∧ ((main crypt simple outfile key1 key2 input).status = some Fatal.key1_has_length_zero
            ∨ (main crypt simple outfile key1 key2 input).status = some Fatal.key2_has_length_zero
            ∨ (main crypt simple outfile key1 key2 input).status
                = some Fatal.bad_input_utf8_sequence
            ∨ (main crypt simple outfile key1 key2 input).status
                = some Fatal.bad_input_utf8_last_sequence))
      ∧ ((main crypt simple outfile key1 key2 input).status = none →
          ∃ text, read_all input = Except.ok text
            ∧ (main crypt simple outfile key1 key2 input).removed = false
            ∧ (main crypt simple outfile key1 key2 input).out
                = if text = [] then []
                  else (write_all (permuted_text crypt simple key1 key2 text)).1) := by
  rcases main_outcome crypt simple outfile key1 key2 input with ⟨e, h, he⟩ | ⟨text, hr, h⟩
  · rw [h]
    constructor
    · intro _
      cases outfile
      · refine ⟨rfl, rfl, ?_⟩
        rcases he with he | he | he | he <;> subst he <;> simp [fatal]
      · refine ⟨rfl, rfl, ?_⟩
        rcases he with he | he | he | he <;> subst he <;> simp [fatal]
    · intro hs
      cases outfile <;> simp [fatal] at hs
  · rw [h]
    constructor
    · intro hs
      exact absurd rfl hs
    · intro _
      exact ⟨text, hr, rfl, rfl⟩

/-- A run of the amended C14 with an output file, on an input that is not
valid UTF-8: nothing is written and the file is removed. -/
theorem C14_no_text_on_failure_witness :
    (main true false true [98, 97] [97, 99, 98] [0x61, 0xFF]).status ≠ none
      ∧ (main true false true [98, 97] [97, 99, 98] [0x61, 0xFF]).out = []
      ∧ (main true false true [98, 97] [97, 99, 98] [0x61, 0xFF]).removed = true :=
  ⟨by decide,
    ((C14_no_text_on_failure true false true [98, 97] [97, 99, 98] [0x61, 0xFF]).1
      (by decide)).1,
    ((C14_no_text_on_failure true false true [98, 97] [97, 99, 98] [0x61, 0xFF]).1
      (by decide)).2.1⟩

/-- C15: for every non-empty key `K` without NUL, of length `L`, and every
position `i` below the length of the text, the item built at position `i` by
the loop of `transpose` has the key character `K[i mod L]` and the column
`i mod L`, and so has the item built on the index `i` by the Phase A loop of
`reverse`: both loops use the same rule. -/
theorem C15_cyclic_rule (K : List Int) (hne : K ≠ []) (h0 : ∀ c ∈ K, c ≠ 0) (msg : List Nat)
    (i : Nat) (hi : i < msg.length) :
    (fill_items K 0 msg)[i]?
        = some ({ code := msg.getD i 0, key := K.getD (i % K.length) 0,
                  subkey := ((i % K.length : Nat) : Int) } : tc_item)
      ∧ (fill_items K 0 (List.range msg.length))[i]?
        = some ({ code := i, key := K.getD (i % K.length) 0,
                  subkey := ((i % K.length : Nat) : Int) } : tc_item) := by
  have hL := strlen_eq_length K h0
  have hpos := strlen_pos K (key_nonempty_of_ne_nil K hne h0)
  constructor
  · rw [fill_items_getElem K hpos msg i hi, hL]
    rfl
  · rw [fill_items_getElem K hpos (List.range msg.length) i (by simpa using hi), hL]
    simp [key_at, hi]

/-- A run of C15 at position 4 of a text of six elements under the key "bca". -/
theorem C15_cyclic_rule_witness :
    (fill_items [98, 99, 97] 0 [10, 11, 12, 13, 14, 15])[4]?
        = some ({ code := 14, key := 99, subkey := 1 } : tc_item)
      ∧ (fill_items [98, 99, 97] 0 (List.range 6))[4]?
        = some ({ code := 4, key := 99, subkey := 1 } : tc_item) :=
  C15_cyclic_rule [98, 99, 97] (by decide) (by decide) [10, 11, 12, 13, 14, 15] 4 (by decide)

/-- C16: for every sequence `S` of length `n`, every non-empty key `K` and
every slot `j < n`, the list of indices held by the items after Phase A of
`reverse` has at slot `j` an index `i < n`, and `transpose S K` has at slot `j`
the element `S[i]`. -/
theorem C16_phase_a_routes (S : List Nat) (K : List Int) (_hK : key_nonempty K) (j : Nat)
    (hj : j < S.length) :
    ∃ i, (phase_a_indices S.length K)[j]? = some i ∧ i < S.length
      ∧ (transpose S K)[j]? = S[i]? := by
  obtain ⟨i, h1, h2, h3, h4⟩ := transpose_getElem S K j hj
  exact ⟨i, h1, h2, h4.trans h3.symm⟩

/-- A run of C16 at slot 1 of the sequence 1..6 under the key "bca": Phase A
holds the index 5 there and `transpose` the element 6. -/
theorem C16_phase_a_routes_witness :
    key_nonempty [98, 99, 97] ∧ (phase_a_indices 6 [98, 99, 97])[1]? = some 5
      ∧ (transpose [1, 2, 3, 4, 5, 6] [98, 99, 97])[1]? = some 6
      ∧ ∃ i, (phase_a_indices [1, 2, 3, 4, 5, 6].length [98, 99, 97])[1]? = some i
          ∧ i < [1, 2, 3, 4, 5, 6].length
          ∧ (transpose [1, 2, 3, 4, 5, 6] [98, 99, 97])[1]? = [1, 2, 3, 4, 5, 6][i]? :=
  ⟨by decide, by decide, by decide,
    C16_phase_a_routes [1, 2, 3, 4, 5, 6] [98, 99, 97] (by decide) 1 (by decide)⟩

/-- C17: transposition is not commutative and a `reverse` undoes only the
last `transpose`: on the sequence 1, 2, 3 with the keys "ba" and "acb" the two
orders of transposing differ, and undoing the stages in the order of
encryption does not give the sequence back. -/
theorem C17_order_matters :
    ∃ (S : List Nat) (K1 K2 : List Int), key_nonempty K1 ∧ key_nonempty K2
      ∧ transpose (transpose S K1) K2 ≠ transpose (transpose S K2) K1
      ∧ reverse (reverse (transpose (transpose S K1) K2) K1) K2 ≠ S :=
  ⟨[1, 2, 3], [98, 97], [97, 99, 98], by decide, by decide, by decide, by decide⟩

/-- C18: for every sequence `C` of code points at most 0x10FFFF and outside the
surrogate range, feeding the bytes that `utf8_code` stores for the elements of
`C` one by one to `utf8_decode`, from the state `UTF8_ACCEPT`, never gives
`UTF8_REJECT`, ends in `UTF8_ACCEPT` and completes exactly the code points of
`C`; `read_all` returns `C` on these bytes. -/
theorem C18_decode_undoes_encode (C : List Nat)
    (hC : ∀ c ∈ C, c ≤ 0x10FFFF ∧ ¬ (0xD800 ≤ c ∧ c ≤ 0xDFFF)) (cp : Nat) :
    (∀ r ∈ decode_feed UTF8_ACCEPT cp (C.flatMap (fun c => (utf8_code c).2)),
        r.1 ≠ UTF8_REJECT)
      ∧ final_state UTF8_ACCEPT (decode_feed UTF8_ACCEPT cp (C.flatMap (fun c => (utf8_code c).2)))
          = UTF8_ACCEPT
      ∧ emitted (decode_feed UTF8_ACCEPT cp (C.flatMap (fun c => (utf8_code c).2))) = C
      ∧ read_all (C.flatMap (fun c => (utf8_code c).2)) = Except.ok C := by
  rw [utf8_code_stream C hC]
  obtain ⟨h1, h2, h3⟩ := decode_feed_stream C hC cp
  exact ⟨h1, h2, h3, read_all_stream C hC⟩

/-- A run of C18 on the code points U+0000, "a", U+00E9, the euro sign and
U+1F600. -/
theorem C18_decode_undoes_encode_witness :
    [0, 0x61, 0xE9, 0x20AC, 0x1F600].flatMap (fun c => (utf8_code c).2)
        = [0, 0x61, 0xC3, 0xA9, 0xE2, 0x82, 0xAC, 0xF0, 0x9F, 0x98, 0x80]
      ∧ emitted (decode_feed UTF8_ACCEPT 0
          ([0, 0x61, 0xE9, 0x20AC, 0x1F600].flatMap (fun c => (utf8_code c).2)))
        = [0, 0x61, 0xE9, 0x20AC, 0x1F600] :=
  ⟨by decide,
    (C18_decode_undoes_encode [0, 0x61, 0xE9, 0x20AC, 0x1F600] (by decide) 0).2.2.1⟩

/-- C19: for every sequence `S` and every non-empty key `K`,
`transpose (reverse S K) K` is `S`: `reverse` is also a right inverse of
`transpose`. -/
theorem C19_transpose_reverse (S : List Nat) (K : List Int) (_hK : key_nonempty K) :
    transpose (reverse S K) K = S :=
  transpose_reverse S K

/-- A run of C19 on the sequence 1..6 and the key "bca". -/
theorem C19_transpose_reverse_witness :
    key_nonempty [98, 99, 97]
      ∧ transpose (reverse [1, 2, 3, 4, 5, 6] [98, 99, 97]) [98, 99, 97] = [1, 2, 3, 4, 5, 6] :=
  ⟨by decide, C19_transpose_reverse [1, 2, 3, 4, 5, 6] [98, 99, 97] (by decide)⟩

/-- C20: for every sequence `S` and every key `K` of length exactly 1,
`transpose S K` and `reverse S K` are `S`. -/
theorem C20_one_character_key (S : List Nat) (K : List Int) (hK : strlen K = 1) :
    transpose S K = S ∧ reverse S K = S :=
  ⟨transpose_one S K hK, reverse_one S K hK⟩

/-- A run of C20 on the sequence 3, 1, 2 and the key "x". -/
theorem C20_one_character_key_witness :
    strlen [120] = 1 ∧ transpose [3, 1, 2] [120] = [3, 1, 2] ∧ reverse [3, 1, 2] [120] = [3, 1, 2] :=
  ⟨by decide, C20_one_character_key [3, 1, 2] [120] (by decide)⟩

/-- C21: on a text of at most 2^31 - 1 elements and a key of `char` values,
for all items `a` and `b` handed to the sort by `transpose`, by Phase A of
`reverse` (key a `char`, subkey a column) or by Phase B of `reverse` (key an
index below the length), the two subtractions of `compare` stay in the range
of `int`, so that `compare` in 32-bit arithmetic is the exact `compare`, and
`compare a b` is negative, zero or positive exactly when `(a.key, a.subkey)` is
lexicographically less than, equal to or greater than `(b.key, b.subkey)`; in
Phase B the keys are pairwise distinct and the order is that of the keys. -/
theorem C21_compare_range (K : List Int) (hK : ∀ c ∈ K, char_value c) (msg : List Nat)
    (hlen : msg.length ≤ 2147483647) :
    (∀ a b : tc_item,
        (compare a b < 0 ↔ lex_lt a b) ∧ (compare a b = 0 ↔ (a.key = b.key ∧ a.subkey = b.subkey))
          ∧ (0 < compare a b ↔ lex_lt b a))
      ∧ (∀ a ∈ fill_items K 0 msg, ∀ b ∈ fill_items K 0 msg,
          int_range (a.key - b.key) ∧ int_range (a.subkey - b.subkey)
            ∧ compare_int a b = compare a b)
      ∧ (∀ a ∈ fill_items K 0 (List.range msg.length),
          ∀ b ∈ fill_items K 0 (List.range msg.length),
          int_range (a.key - b.key) ∧ int_range (a.subkey - b.subkey)
            ∧ compare_int a b = compare a b)
      ∧ (∀ a ∈ retag (phase_a msg.length K) msg, ∀ b ∈ retag (phase_a msg.length K) msg,
          int_range (a.key - b.key) ∧ int_range (a.subkey - b.subkey)
            ∧ compare_int a b = compare a b
            ∧ (compare a b < 0 ↔ a.key < b.key) ∧ (compare a b = 0 ↔ a.key = b.key)
            ∧ (0 < compare a b ↔ b.key < a.key))
      ∧ ((retag (phase_a msg.length K) msg).map (fun it => it.key)).Nodup
      ∧ (∀ a ∈ fill_items K 0 msg, char_value a.key ∧ 0 ≤ a.subkey ∧ a.subkey < (msg.length : Int))
      ∧ (∀ a ∈ retag (phase_a msg.length K) msg, 0 ≤ a.key ∧ a.key < (msg.length : Int))
      ∧ (key_nonempty K → ∀ a ∈ fill_items K 0 msg, 0 ≤ a.subkey ∧ a.subkey < (strlen K : Int)) := by
  refine ⟨compare_sign, ?_, ?_, ?_, retag_keys_nodup K msg, fill_items_tagged K hK msg, ?_,
    fun h => fill_items_column K h msg⟩
  · intro a ha b hb
    exact tagged_no_overflow msg.length hlen a b (fill_items_tagged K hK msg a ha)
      (fill_items_tagged K hK msg b hb)
  · intro a ha b hb
    have ha' := fill_items_tagged K hK _ a ha
    have hb' := fill_items_tagged K hK _ b hb
    rw [List.length_range] at ha' hb'
    exact tagged_no_overflow msg.length hlen a b ha' hb'
  · intro a ha b hb
    obtain ⟨h1, h2, h3⟩ := retagged_no_overflow msg.length hlen a b
      (retag_retagged K hK msg a ha) (retag_retagged K hK msg b hb)
    obtain ⟨h4, h5, h6⟩ := retag_compare_key K msg a b ha hb
    exact ⟨h1, h2, h3, h4, h5, h6⟩
  · intro a ha
    have h := retag_retagged K hK msg a ha
    exact ⟨h.1, h.2.1⟩

/-- A run of C21 on the sequence 1..6 and the key "bca": two items of
`transpose` and two items of Phase B of `reverse`. -/
theorem C21_compare_range_witness :
    (∀ c ∈ ([98, 99, 97] : List Int), char_value c)
      ∧ ({ code := 2, key := 99, subkey := 1 } : tc_item) ∈ fill_items [98, 99, 97] 0 [1, 2, 3, 4, 5, 6]
      ∧ ({ code := 6, key := 97, subkey := 2 } : tc_item) ∈ fill_items [98, 99, 97] 0 [1, 2, 3, 4, 5, 6]
      ∧ compare_int { code := 2, key := 99, subkey := 1 } { code := 6, key := 97, subkey := 2 }
          = compare { code := 2, key := 99, subkey := 1 } { code := 6, key := 97, subkey := 2 }
      ∧ compare { code := 2, key := 99, subkey := 1 } { code := 6, key := 97, subkey := 2 } = 2
      ∧ ((retag (phase_a 6 [98, 99, 97]) [3, 6, 1, 4, 2, 5]).map (fun it => it.key)).Nodup :=
  ⟨by decide, by decide, by decide,
    ((C21_compare_range [98, 99, 97] (by decide) [1, 2, 3, 4, 5, 6] (by decide)).2.1
      { code := 2, key := 99, subkey := 1 } (by decide)
      { code := 6, key := 97, subkey := 2 } (by decide)).2.2,
    by decide,
    (C21_compare_range [98, 99, 97] (by decide) [3, 6, 1, 4, 2, 5] (by decide)).2.2.2.2.1⟩

end Udtc
